import Mathlib

/-!
Verification of the LRU-cache-with-TTL module (`LRU-ALGORITHM/cache-lru.py`).

The cache state is embedded shallowly:

* Python `Node` objects live in an arena (`nodes : List (Node K V)`); a
  "reference" to a node is its index in the arena.  Nodes are allocated by
  appending to the arena and, as in Python (where unreachable objects are
  merely garbage-collected), never deallocated — removal only unlinks.
  Index `0` is the `head` sentinel and index `1` the `tail` sentinel,
  exactly as created by `__init__`.
* The Python dict `self.cache` is an insertion-ordered association list
  `cache : List (K × Nat)` mapping a key to the arena index of its node;
  `dictLookup` / `dictInsert` / `dictDelete` mirror `d[k]`, `d[k] = v`
  (update-in-place-or-append) and `del d[k]`.
* The clock (`time.time() * 1000`) is passed explicitly as `now : Nat`
  (milliseconds); `ttl_ms` is an `Int` since Python allows non-positive
  arguments, which the code rejects.
* Python exceptions become `Except PyError`: the two `ValueError`s of the
  source keep their messages; `attributeError` models dereferencing a
  `None` link (`AttributeError`), and `keyError` a failing `del d[k]` /
  `d[k]` (`KeyError`).  An arena miss (an index outside the arena) cannot
  arise from the API — indices are produced only by allocation — and is
  mapped to `attributeError` as well.

Keys are opaque values of a type `K` with decidable equality; the sentinel
nodes carry `none` in their `key`/`value` fields (Python `None`), which is
distinct from every user key `some k`.
-/

namespace LRUTTL

/-- One Python `Node` object: payload plus doubly-linked-list links
(arena indices; `none` is Python `None`). -/
structure Node (K V : Type) where
  key : Option K
  value : Option V
  expire_time : Nat
  prev : Option Nat
  next : Option Nat
  deriving DecidableEq

/-- Python exceptions raised by the module. -/
inductive PyError where
  | valueError (msg : String)
  | attributeError
  | keyError
  deriving DecidableEq

/-- `d[k]` as a query: first entry with key `k`, if any. -/
def dictLookup {K : Type} [DecidableEq K] : List (K × Nat) → K → Option Nat
  | [], _ => none
  | (k', v) :: rest, k => if k' = k then some v else dictLookup rest k

/-- `d[k] = v`: overwrite in place if `k` is present, else append
(Python dicts preserve insertion order). -/
def dictInsert {K : Type} [DecidableEq K] : List (K × Nat) → K → Nat → List (K × Nat)
  | [], k, v => [(k, v)]
  | (k', v') :: rest, k, v =>
      if k' = k then (k', v) :: rest else (k', v') :: dictInsert rest k v

/-- `del d[k]`: drop the entry with key `k` (the caller checks presence). -/
def dictDelete {K : Type} [DecidableEq K] : List (K × Nat) → K → List (K × Nat)
  | [], _ => []
  | (k', v') :: rest, k => if k' = k then rest else (k', v') :: dictDelete rest k

/-- The cache object: configured capacity, the Index dict, and the node
arena holding the Recency Ledger. -/
structure LRUCacheWithTTL (K V : Type) where
  capacity : Nat
  cache : List (K × Nat)
  nodes : List (Node K V)
  deriving DecidableEq

namespace LRUCacheWithTTL

variable {K V : Type} [DecidableEq K]

/-- `__init__(capacity)`: rejects `capacity <= 0`, otherwise creates the
two sentinels with `head.next = tail` and `tail.prev = head`.
The validated capacity is stored as a `Nat` (it is positive). -/
def init (capacity : Int) : Except PyError (LRUCacheWithTTL K V) :=
  if capacity ≤ 0 then .error (.valueError "Capacity must be positive")
  else .ok
    { capacity := capacity.toNat
      cache := []
      nodes :=
        [ { key := none, value := none, expire_time := 0, prev := none, next := some 1 }
        , { key := none, value := none, expire_time := 0, prev := some 0, next := none } ] }

/-- Overwrite the node stored at arena index `i`. -/
def setNode (s : LRUCacheWithTTL K V) (i : Nat) (n : Node K V) : LRUCacheWithTTL K V :=
  { s with nodes := s.nodes.set i n }

/-- `_remove_node(node)`: `node.prev.next = node.next; node.next.prev = node.prev`,
step by step in Python's evaluation order. -/
def _remove_node (s : LRUCacheWithTTL K V) (nid : Nat) :
    Except PyError (LRUCacheWithTTL K V) :=
  match s.nodes[nid]? with
  | none => .error .attributeError
  | some n =>
    match n.prev with
    | none => .error .attributeError
    | some p =>
      match s.nodes[p]? with
      | none => .error .attributeError
      | some pn =>
        let s1 := setNode s p { pn with next := n.next }
        match n.next with
        | none => .error .attributeError
        | some q =>
          match s1.nodes[q]? with
          | none => .error .attributeError
          | some qn => .ok (setNode s1 q { qn with prev := n.prev })

/-- `_add_to_head(node)`:
`node.prev = head; node.next = head.next; head.next.prev = node; head.next = node`,
step by step in Python's evaluation order. -/
def _add_to_head (s : LRUCacheWithTTL K V) (nid : Nat) :
    Except PyError (LRUCacheWithTTL K V) :=
  match s.nodes[nid]? with
  | none => .error .attributeError
  | some n =>
    let s1 := setNode s nid { n with prev := some 0 }
    match s1.nodes[0]? with
    | none => .error .attributeError
    | some h1 =>
      match s1.nodes[nid]? with
      | none => .error .attributeError
      | some n1 =>
        let s2 := setNode s1 nid { n1 with next := h1.next }
        match s2.nodes[0]? with
        | none => .error .attributeError
        | some h2 =>
          match h2.next with
          | none => .error .attributeError
          | some hn =>
            match s2.nodes[hn]? with
            | none => .error .attributeError
            | some m =>
              let s3 := setNode s2 hn { m with prev := some nid }
              match s3.nodes[0]? with
              | none => .error .attributeError
              | some h3 => .ok (setNode s3 0 { h3 with next := some nid })

/-- `_move_to_head(node)`: remove, then re-insert at the head. -/
def _move_to_head (s : LRUCacheWithTTL K V) (nid : Nat) :
    Except PyError (LRUCacheWithTTL K V) :=
  match _remove_node s nid with
  | .error e => .error e
  | .ok s1 => _add_to_head s1 nid

/-- `_remove_tail()`: unlink and return `tail.prev`. -/
def _remove_tail (s : LRUCacheWithTTL K V) :
    Except PyError (Nat × LRUCacheWithTTL K V) :=
  match s.nodes[1]? with
  | none => .error .attributeError
  | some t =>
    match t.prev with
    | none => .error .attributeError
    | some lru =>
      match _remove_node s lru with
      | .error e => .error e
      | .ok s1 => .ok (lru, s1)

/-- `_is_expired(node)`: `time.time() * 1000 >= node.expire_time`. -/
def _is_expired (now : Nat) (n : Node K V) : Bool :=
  decide (n.expire_time ≤ now)

/-- The keys collected by the first loop of `_cleanup_expired`
(dict iteration order). -/
def expired_keys (s : LRUCacheWithTTL K V) (now : Nat) : List K :=
  (s.cache.filter fun p => (s.nodes[p.2]?).any (_is_expired now)).map Prod.fst

/-- One iteration of the second loop of `_cleanup_expired`:
`node = self.cache[key]` (`KeyError` if absent), `_remove_node(node)`,
`del self.cache[key]`. -/
def cleanupStep (st : LRUCacheWithTTL K V) (k : K) :
    Except PyError (LRUCacheWithTTL K V) :=
  match dictLookup st.cache k with
  | none => .error .keyError
  | some nid =>
    match _remove_node st nid with
    | .error e => .error e
    | .ok st1 => .ok { st1 with cache := dictDelete st1.cache k }

/-- `_cleanup_expired()`: collect expired keys, then remove each. -/
def _cleanup_expired (s : LRUCacheWithTTL K V) (now : Nat) :
    Except PyError (LRUCacheWithTTL K V) :=
  (expired_keys s now).foldlM cleanupStep s

/-- `get(key)`: miss returns `None`; an expired hit is removed lazily and
returns `None`; a live hit is moved to the head and its value returned. -/
def get (s : LRUCacheWithTTL K V) (now : Nat) (k : K) :
    Except PyError (Option V × LRUCacheWithTTL K V) :=
  match dictLookup s.cache k with
  | none => .ok (none, s)
  | some nid =>
    match s.nodes[nid]? with
    | none => .error .attributeError
    | some n =>
      if _is_expired now n then
        match _remove_node s nid with
        | .error e => .error e
        | .ok s1 => .ok (none, { s1 with cache := dictDelete s1.cache k })
      else
        match _move_to_head s nid with
        | .error e => .error e
        | .ok s1 =>
          match s1.nodes[nid]? with
          | none => .error .attributeError
          | some n1 => .ok (n1.value, s1)

/-- `put(key, value, ttl_ms)`: reject non-positive TTL; update an existing
key in place and move it to the head; otherwise allocate, sweep and/or
evict the LRU node when at capacity, then insert at the head. -/
def put (s : LRUCacheWithTTL K V) (now : Nat) (k : K) (v : V) (ttl_ms : Int) :
    Except PyError (LRUCacheWithTTL K V) :=
  if ttl_ms ≤ 0 then .error (.valueError "TTL must be positive")
  else
    let expire_time := now + ttl_ms.toNat
    match dictLookup s.cache k with
    | some nid =>
      match s.nodes[nid]? with
      | none => .error .attributeError
      | some n =>
        _move_to_head (setNode s nid { n with value := some v, expire_time := expire_time }) nid
    | none =>
      let nid := s.nodes.length
      let sA : LRUCacheWithTTL K V :=
        { s with nodes := s.nodes ++
            [{ key := some k, value := some v, expire_time := expire_time,
               prev := none, next := none }] }
      let afterCap : Except PyError (LRUCacheWithTTL K V) :=
        if sA.capacity ≤ sA.cache.length then
          match _cleanup_expired sA now with
          | .error e => .error e
          | .ok s1 =>
            if s1.capacity ≤ s1.cache.length then
              match _remove_tail s1 with
              | .error e => .error e
              | .ok (lru, s2) =>
                match s2.nodes[lru]? with
                | none => .error .attributeError
                | some lruN =>
                  match lruN.key with
                  | none => .error .keyError
                  | some lk =>
                    if (dictLookup s2.cache lk).isSome then
                      .ok { s2 with cache := dictDelete s2.cache lk }
                    else .error .keyError
            else .ok s1
        else .ok sA
      match afterCap with
      | .error e => .error e
      | .ok sB => _add_to_head { sB with cache := dictInsert sB.cache k nid } nid

/-- `size()`: `len(self.cache)`. -/
def size (s : LRUCacheWithTTL K V) : Nat := s.cache.length

/-- `clear()`: `self.cache.clear(); head.next = tail; tail.prev = head`.
Total, as in Python (the sentinels always exist in a constructed cache;
the fallback branches are unreachable arena-miss artifacts). -/
def clear (s : LRUCacheWithTTL K V) : LRUCacheWithTTL K V :=
  let s0 : LRUCacheWithTTL K V := { s with cache := [] }
  match s0.nodes[0]? with
  | none => s0
  | some h =>
    let s1 := setNode s0 0 { h with next := some 1 }
    match s1.nodes[1]? with
    | none => s1
    | some t => setNode s1 1 { t with prev := some 0 }

/-- Value of `node.next` at arena index `i` (`none` also when `i` is not
allocated). -/
def nextOf (s : LRUCacheWithTTL K V) (i : Nat) : Option Nat :=
  (s.nodes[i]?).bind Node.next

/-- Value of `node.prev` at arena index `i`. -/
def prevOf (s : LRUCacheWithTTL K V) (i : Nat) : Option Nat :=
  (s.nodes[i]?).bind Node.prev

/-- Value of `node.key` at arena index `i`. -/
def keyOf (s : LRUCacheWithTTL K V) (i : Nat) : Option K :=
  (s.nodes[i]?).bind Node.key

/-- Value of `node.value` at arena index `i`. -/
def valOf (s : LRUCacheWithTTL K V) (i : Nat) : Option V :=
  (s.nodes[i]?).bind Node.value

/-- Value of `node.expire_time` at arena index `i` (`none` when unallocated). -/
def expOf (s : LRUCacheWithTTL K V) (i : Nat) : Option Nat :=
  (s.nodes[i]?).map Node.expire_time

/-- The arena indices `a :: xs ++ [b]` form a doubly-linked chain:
each consecutive pair is linked by `next` in the forward direction and by
`prev` in the backward direction. -/
def chainOk (s : LRUCacheWithTTL K V) (a : Nat) (xs : List Nat) (b : Nat) : Prop :=
  match xs with
  | [] => nextOf s a = some b ∧ prevOf s b = some a
  | x :: xs' => nextOf s a = some x ∧ prevOf s x = some a ∧ chainOk s x xs' b

instance chainOkDecidable (s : LRUCacheWithTTL K V) :
    (a : Nat) → (xs : List Nat) → (b : Nat) → Decidable (chainOk s a xs b)
  | _, [], _ => inferInstanceAs (Decidable (_ ∧ _))
  | _, x :: xs', b =>
    haveI : Decidable (chainOk s x xs' b) := chainOkDecidable s x xs' b
    inferInstanceAs (Decidable (_ ∧ _ ∧ _))

end LRUCacheWithTTL

/-! ## The abstract ledger

A cache state is abstracted to the list of its live records in MRU → LRU
order; each record is a triple `(key, value, expire_time)`.  The functions
below describe, purely on such lists, what the pointer-level operations do. -/

/-- Entry for `k` in an abstract ledger: `(value, expire_time)`. -/
def absLookup {K : Type} [DecidableEq K] {V : Type} (k : K) :
    List (K × V × Nat) → Option (V × Nat)
  | [] => none
  | e :: es => if e.1 = k then some (e.2.1, e.2.2) else absLookup k es

/-- Remove the first (under distinct keys: the only) entry for `k`. -/
def absRemove {K : Type} [DecidableEq K] {V : Type} (k : K) :
    List (K × V × Nat) → List (K × V × Nat)
  | [] => []
  | e :: es => if e.1 = k then es else e :: absRemove k es

/-- The sweep of `_cleanup_expired`: keep exactly the records whose
`expire_time` is still in the future. -/
def sweepList {K V : Type} (now : Nat) (l : List (K × V × Nat)) : List (K × V × Nat) :=
  l.filter fun e => decide (now < e.2.2)

/-- The capacity step of `put` for a new key: sweep, then drop the LRU
(last) record if the sweep did not get below capacity. -/
def evictResult {K V : Type} (now : Nat) (cap : Nat) (l : List (K × V × Nat)) :
    List (K × V × Nat) :=
  let l1 := sweepList now l
  if cap ≤ l1.length then l1.dropLast else l1

/-- Arena index paired with the abstract ledger: the index stored for the
first entry whose key is `k` (positional companion of `absLookup`). -/
def lookupIdx {K : Type} [DecidableEq K] {V : Type} :
    List Nat → List (K × V × Nat) → K → Option Nat
  | i :: is, e :: es, k => if e.1 = k then some i else lookupIdx is es k
  | _, _, _ => none

namespace LRUCacheWithTTL

variable {K V : Type} [DecidableEq K]

/-- The node at arena index `i` carries exactly the abstract record `e`. -/
def entryMatches (s : LRUCacheWithTTL K V) (i : Nat) (e : K × V × Nat) : Prop :=
  keyOf s i = some e.1 ∧ valOf s i = some e.2.1 ∧ expOf s i = some e.2.2

/-- Representation invariant: the cache state `s` stores the abstract
ledger `l` (MRU → LRU), with `ids` the arena indices of the live nodes in
ledger order.

* `chain`: `0 :: ids ++ [1]` is a valid doubly-linked chain from the head
  sentinel to the tail sentinel (both directions).
* `entries`: the node at `ids[j]` carries exactly the record `l[j]`.
* `cache_lookup` + the `Nodup` fields: the Index dict and the ledger agree
  — every dict entry names a live node, and key-for-key they are in
  bijection.
-/
structure ReprOK (s : LRUCacheWithTTL K V) (ids : List Nat) (l : List (K × V × Nat)) :
    Prop where
  ids_nodup : ids.Nodup
  head_notin : 0 ∉ ids
  tail_notin : 1 ∉ ids
  two_le : 2 ≤ s.nodes.length
  head_prev : prevOf s 0 = none
  head_key : keyOf s 0 = none
  tail_next : nextOf s 1 = none
  tail_key : keyOf s 1 = none
  chain : chainOk s 0 ids 1
  entries : List.Forall₂ (entryMatches s) ids l
  cache_keys_nodup : (s.cache.map Prod.fst).Nodup
  lkeys_nodup : (l.map Prod.fst).Nodup
  cache_lookup : ∀ k : K, dictLookup s.cache k = lookupIdx ids l k
  cache_len : s.cache.length = l.length

/-- States reachable through the public API: a successful construction
followed by any sequence of successful `get` / `put` calls and `clear`s
(a `put` whose TTL is rejected, or a failed construction, yields no state). -/
inductive Reachable : LRUCacheWithTTL K V → Prop where
  | init (capacity : Int) (s : LRUCacheWithTTL K V) :
      LRUCacheWithTTL.init capacity = .ok s → Reachable s
  | get (s : LRUCacheWithTTL K V) (now : Nat) (k : K) (r : Option V)
      (s' : LRUCacheWithTTL K V) :
      Reachable s → LRUCacheWithTTL.get s now k = .ok (r, s') → Reachable s'
  | put (s : LRUCacheWithTTL K V) (now : Nat) (k : K) (v : V) (ttl : Int)
      (s' : LRUCacheWithTTL K V) :
      Reachable s → LRUCacheWithTTL.put s now k v ttl = .ok s' → Reachable s'
  | clear (s : LRUCacheWithTTL K V) :
      Reachable s → Reachable (LRUCacheWithTTL.clear s)

/-- Well-formedness: positive capacity, a valid representation of some
abstract ledger, and no more entries than the capacity. -/
def WF (s : LRUCacheWithTTL K V) : Prop :=
  1 ≤ s.capacity ∧ ∃ ids l, ReprOK s ids l ∧ l.length ≤ s.capacity

/-- A sequence of `put` calls (all at the same clock reading and TTL),
stopping at the first exception. -/
def putSeq (s : LRUCacheWithTTL K V) (now : Nat) (kvs : List (K × V)) (ttl : Int) :
    Except PyError (LRUCacheWithTTL K V) :=
  kvs.foldlM (fun st kv => put st now kv.1 kv.2 ttl) s

end LRUCacheWithTTL

/-- The freshly constructed capacity-1 cache over `Nat` keys/values. -/
def winit1 : LRUCacheWithTTL Nat Nat :=
  { capacity := 1
    cache := []
    nodes :=
      [ { key := none, value := none, expire_time := 0, prev := none, next := some 1 }
      , { key := none, value := none, expire_time := 0, prev := some 0, next := none } ] }

/-- Concrete state used to instantiate theorems: a capacity-1 cache
holding key `0 ↦ 7` with `expire_time = 5` (the state
`put (init 1) now=0 k=0 v=7 ttl=5` produces). -/
def wcap1 : LRUCacheWithTTL Nat Nat :=
  { capacity := 1
    cache := [(0, 2)]
    nodes :=
      [ { key := none, value := none, expire_time := 0, prev := none, next := some 2 }
      , { key := none, value := none, expire_time := 0, prev := some 2, next := none }
      , { key := some 0, value := some 7, expire_time := 5, prev := some 0, next := some 1 } ] }

/-- Same state with capacity 2. -/
def wcap2 : LRUCacheWithTTL Nat Nat :=
  { wcap1 with capacity := 2 }

/-! ## Lemmas about the dict model -/

variable {K V : Type} [DecidableEq K]

theorem dictLookup_eq_none {d : List (K × Nat)} {k : K} :
    dictLookup d k = none ↔ k ∉ d.map Prod.fst := by
  induction d with
  | nil => simp [dictLookup]
  | cons p rest ih =>
    obtain ⟨k', v⟩ := p
    by_cases h : k' = k
    · subst h; simp [dictLookup]
    · have h' : ¬ k = k' := fun hh => h hh.symm
      simp [dictLookup, h, ih, h']

theorem dictLookup_mem {d : List (K × Nat)} {k : K} {v : Nat}
    (h : dictLookup d k = some v) : (k, v) ∈ d := by
  induction d with
  | nil => simp [dictLookup] at h
  | cons p rest ih =>
    obtain ⟨k', v'⟩ := p
    by_cases hk : k' = k
    · simp [dictLookup, hk] at h
      simp [hk, h]
    · simp [dictLookup, hk] at h
      exact List.mem_cons_of_mem _ (ih h)

theorem dictDelete_sublist (d : List (K × Nat)) (k : K) :
    (dictDelete d k).Sublist d := by
  induction d with
  | nil => simp [dictDelete]
  | cons p rest ih =>
    obtain ⟨k', v'⟩ := p
    by_cases h : k' = k
    · simp only [dictDelete, if_pos h]
      exact List.sublist_cons_self (k', v') rest
    · simp only [dictDelete, if_neg h]
      exact ih.cons₂ (k', v')

theorem dictDelete_lookup {d : List (K × Nat)} (hnd : (d.map Prod.fst).Nodup)
    (k k' : K) :
    dictLookup (dictDelete d k) k' = if k' = k then none else dictLookup d k' := by
  induction d with
  | nil => simp [dictDelete, dictLookup]
  | cons p rest ih =>
    obtain ⟨a, b⟩ := p
    simp only [List.map_cons, List.nodup_cons] at hnd
    by_cases hak : a = k
    · subst hak
      have hdel : dictDelete ((a, b) :: rest) a = rest := by simp [dictDelete]
      rw [hdel]
      by_cases hk : k' = a
      · subst hk
        rw [if_pos rfl]
        exact dictLookup_eq_none.2 hnd.1
      · rw [if_neg hk]
        have hstep : dictLookup ((a, b) :: rest) k' = dictLookup rest k' := by
          have hne : ¬ a = k' := fun hh => hk hh.symm
          simp [dictLookup, hne]
        rw [hstep]
    · have hdel : dictDelete ((a, b) :: rest) k = (a, b) :: dictDelete rest k := by
        simp [dictDelete, hak]
      rw [hdel]
      by_cases hak' : a = k'
      · subst hak'
        have hne : ¬ a = k := hak
        simp [dictLookup, hne]
      · have h1 : dictLookup ((a, b) :: dictDelete rest k) k' =
            dictLookup (dictDelete rest k) k' := by
          simp [dictLookup, hak']
        have h2 : dictLookup ((a, b) :: rest) k' = dictLookup rest k' := by
          simp [dictLookup, hak']
        rw [h1, ih hnd.2, h2]

theorem dictDelete_length {d : List (K × Nat)} {k : K}
    (h : k ∈ d.map Prod.fst) : (dictDelete d k).length + 1 = d.length := by
  induction d with
  | nil => simp at h
  | cons p rest ih =>
    obtain ⟨a, b⟩ := p
    by_cases hak : a = k
    · simp [dictDelete, hak]
    · simp only [List.map_cons, List.mem_cons] at h
      rcases h with h | h

      · exact absurd h.symm hak
      · simp [dictDelete, hak, ih h]

theorem dictDelete_map_fst_sublist (d : List (K × Nat)) (k : K) :
    ((dictDelete d k).map Prod.fst).Sublist (d.map Prod.fst) :=
  (dictDelete_sublist d k).map Prod.fst

theorem dictInsert_fresh {d : List (K × Nat)} {k : K} (v : Nat)
    (h : dictLookup d k = none) : dictInsert d k v = d ++ [(k, v)] := by
  induction d with
  | nil => simp [dictInsert]
  | cons p rest ih =>
    obtain ⟨a, b⟩ := p
    by_cases hak : a = k
    · simp [dictLookup, hak] at h
    · simp only [dictLookup, hak, if_false] at h
      simp [dictInsert, hak, ih h]

theorem dictLookup_append (d₁ d₂ : List (K × Nat)) (k : K) :
    dictLookup (d₁ ++ d₂) k = (dictLookup d₁ k).or (dictLookup d₂ k) := by
  induction d₁ with
  | nil => simp [dictLookup]
  | cons p rest ih =>
    obtain ⟨a, b⟩ := p
    by_cases hak : a = k <;> simp [dictLookup, hak, ih]

/-! ## Lemmas about the abstract ledger -/

theorem absLookup_eq_none {l : List (K × V × Nat)} {k : K} :
    absLookup k l = none ↔ k ∉ l.map Prod.fst := by
  induction l with
  | nil => simp [absLookup]
  | cons e es ih =>
    by_cases h : e.1 = k
    · subst h; simp [absLookup]
    · have h' : ¬ k = e.1 := fun hh => h hh.symm
      simp [absLookup, h, ih, h']

theorem absLookup_cons {e : K × V × Nat} {es : List (K × V × Nat)} {k : K} :
    absLookup k (e :: es) = if e.1 = k then some (e.2.1, e.2.2) else absLookup k es :=
  rfl

theorem absLookup_append (l₁ l₂ : List (K × V × Nat)) (k : K) :
    absLookup k (l₁ ++ l₂) = (absLookup k l₁).or (absLookup k l₂) := by
  induction l₁ with
  | nil => simp [absLookup]
  | cons e es ih =>
    by_cases h : e.1 = k <;> simp [absLookup, h, ih]

theorem absRemove_of_not_mem {l : List (K × V × Nat)} {k : K}
    (h : k ∉ l.map Prod.fst) : absRemove k l = l := by
  induction l with
  | nil => rfl
  | cons e es ih =>
    simp only [List.map_cons, List.mem_cons] at h
    push_neg at h
    have he : ¬ e.1 = k := fun hh => h.1 hh.symm
    simp [absRemove, he, ih h.2]

theorem absRemove_append_of_not_mem {l₁ l₂ : List (K × V × Nat)} {k : K}
    (h : k ∉ l₁.map Prod.fst) : absRemove k (l₁ ++ l₂) = l₁ ++ absRemove k l₂ := by
  induction l₁ with
  | nil => rfl
  | cons e es ih =>
    simp only [List.map_cons, List.mem_cons] at h
    push_neg at h
    have he : ¬ e.1 = k := fun hh => h.1 hh.symm
    simp [absRemove, he, ih h.2]

theorem absRemove_cons_self {e : K × V × Nat} {es : List (K × V × Nat)} :
    absRemove e.1 (e :: es) = es := by
  simp [absRemove]

theorem absRemove_split {l₁ l₂ : List (K × V × Nat)} {k : K} {v : V} {e : Nat}
    (h : k ∉ l₁.map Prod.fst) :
    absRemove k (l₁ ++ (k, v, e) :: l₂) = l₁ ++ l₂ := by
  rw [absRemove_append_of_not_mem h]
  simp [absRemove]

theorem absRemove_sublist (k : K) (l : List (K × V × Nat)) :
    (absRemove k l).Sublist l := by
  induction l with
  | nil => simp [absRemove]
  | cons e es ih =>
    by_cases h : e.1 = k
    · simp only [absRemove, if_pos h]
      exact List.sublist_cons_self e es
    · simp only [absRemove, if_neg h]
      exact ih.cons₂ e

/-! ## Lemmas about `lookupIdx` -/

theorem lookupIdx_nil_left {l : List (K × V × Nat)} {k : K} :
    lookupIdx ([] : List Nat) l k = none := by
  cases l <;> rfl

theorem lookupIdx_nil_right {ids : List Nat} {k : K} :
    lookupIdx ids ([] : List (K × V × Nat)) k = none := by
  cases ids <;> rfl

theorem lookupIdx_cons {i : Nat} {is : List Nat} {e : K × V × Nat}
    {es : List (K × V × Nat)} {k : K} :
    lookupIdx (i :: is) (e :: es) k = if e.1 = k then some i else lookupIdx is es k :=
  rfl

theorem lookupIdx_eq_none {ids : List Nat} {l : List (K × V × Nat)} {k : K}
    (hlen : ids.length = l.length) :
    lookupIdx ids l k = none ↔ k ∉ l.map Prod.fst := by
  induction ids generalizing l with
  | nil =>
    cases l with
    | nil => simp [lookupIdx_nil_left]
    | cons e es => simp at hlen
  | cons i is ih =>
    cases l with
    | nil => simp at hlen
    | cons e es =>
      simp only [List.length_cons, Nat.succ_inj] at hlen
      by_cases h : e.1 = k
      · subst h; simp [lookupIdx_cons]
      · have h' : ¬ k = e.1 := fun hh => h hh.symm
        simp [lookupIdx_cons, h, ih hlen, h']

theorem lookupIdx_append {is₁ is₂ : List Nat} {l₁ l₂ : List (K × V × Nat)} {k : K}
    (hlen : is₁.length = l₁.length) :
    lookupIdx (is₁ ++ is₂) (l₁ ++ l₂) k =
      (lookupIdx is₁ l₁ k).or (lookupIdx is₂ l₂ k) := by
  induction is₁ generalizing l₁ with
  | nil =>
    cases l₁ with
    | nil => simp [lookupIdx_nil_left]
    | cons e es => simp at hlen
  | cons i is ih =>
    cases l₁ with
    | nil => simp at hlen
    | cons e es =>
      simp only [List.length_cons, Nat.succ_inj] at hlen
      by_cases h : e.1 = k <;> simp [lookupIdx_cons, h, ih hlen]

theorem lookupIdx_split {ids : List Nat} {l : List (K × V × Nat)} {k : K} {nid : Nat}
    (h : lookupIdx ids l k = some nid) :
    ∃ (ids₁ ids₂ : List Nat) (l₁ l₂ : List (K × V × Nat)) (v : V) (e : Nat),
      ids = ids₁ ++ nid :: ids₂ ∧ l = l₁ ++ (k, v, e) :: l₂ ∧
      ids₁.length = l₁.length ∧ k ∉ l₁.map Prod.fst := by
  induction ids generalizing l with
  | nil => rw [lookupIdx_nil_left] at h; exact absurd h (by simp)
  | cons i is ih =>
    cases l with
    | nil => rw [lookupIdx_nil_right] at h; exact absurd h (by simp)
    | cons ent es =>
      rw [lookupIdx_cons] at h
      by_cases he : ent.1 = k
      · rw [if_pos he] at h
        obtain rfl : i = nid := by injection h
        exact ⟨[], is, [], es, ent.2.1, ent.2.2, rfl, by
          simp [← he], by simp, by simp⟩
      · rw [if_neg he] at h
        obtain ⟨ids₁, ids₂, l₁, l₂, v, e, h1, h2, h3, h4⟩ := ih h
        refine ⟨i :: ids₁, ids₂, ent :: l₁, l₂, v, e, by simp [h1], by simp [h2],
          by simp [h3], ?_⟩
        simp only [List.map_cons, List.mem_cons]
        push_neg
        exact ⟨fun hh => he hh.symm, h4⟩

/-! ## Lemmas about doubly-linked chains -/

namespace LRUCacheWithTTL

theorem chainOk_append {s : LRUCacheWithTTL K V} {a m b : Nat} {xs ys : List Nat} :
    chainOk s a (xs ++ m :: ys) b ↔ chainOk s a xs m ∧ chainOk s m ys b := by
  induction xs generalizing a with
  | nil => simp [chainOk, and_assoc]
  | cons x xs ih => simp [chainOk, ih, and_assoc]

theorem chainOk_frame {s s' : LRUCacheWithTTL K V} {a b : Nat} {xs : List Nat}
    (hnext : ∀ i ∈ a :: xs, nextOf s' i = nextOf s i)
    (hprev : ∀ i ∈ xs ++ [b], prevOf s' i = prevOf s i)
    (h : chainOk s a xs b) : chainOk s' a xs b := by
  induction xs generalizing a with
  | nil =>
    obtain ⟨h1, h2⟩ := h
    exact ⟨by rw [hnext a (by simp), h1], by rw [hprev b (by simp), h2]⟩
  | cons x xs ih =>
    obtain ⟨h1, h2, h3⟩ := h
    refine ⟨by rw [hnext a (by simp), h1], by rw [hprev x (by simp), h2], ?_⟩
    refine ih (fun i hi => hnext i ?_) (fun i hi => hprev i ?_) h3
    · rcases List.mem_cons.1 hi with rfl | hi <;> simp [hi]
    · simp only [List.mem_append, List.mem_cons] at hi ⊢
      tauto

theorem chainOk_nextOf {s : LRUCacheWithTTL K V} {a b : Nat} {xs : List Nat}
    (h : chainOk s a xs b) : nextOf s a = some (xs.headD b) := by
  cases xs with
  | nil => exact h.1
  | cons x xs => exact h.1

theorem chainOk_prevOf {s : LRUCacheWithTTL K V} {a b : Nat} {xs : List Nat}
    (h : chainOk s a xs b) : prevOf s b = some (xs.getLastD a) := by
  induction xs generalizing a with
  | nil => exact h.2
  | cons x xs ih =>
    rw [List.getLastD_cons]
    exact ih h.2.2
/-- Unlinking the node `m` between the chains `a…xs…m` and `m…ys…b`:
after rewiring `next` at the node before `m` and `prev` at the node after
`m`, the chain `a…xs ++ ys…b` is valid. -/
theorem chain_remove {s s' : LRUCacheWithTTL K V} {a m b : Nat} {xs ys : List Nat}
    (h1 : chainOk s a xs m) (h2 : chainOk s m ys b)
    (hxs : xs.Nodup) (hys : ys.Nodup)
    (hax : a ∉ xs) (hay : a ∉ ys) (hbx : b ∉ xs) (hby : b ∉ ys)
    (hdisj : ∀ u ∈ xs, u ∉ ys)
    (hnext : ∀ i, nextOf s' i =
      if i = xs.getLastD a then some (ys.headD b) else nextOf s i)
    (hprev : ∀ i, prevOf s' i =
      if i = ys.headD b then some (xs.getLastD a) else prevOf s i) :
    chainOk s' a (xs ++ ys) b := by
  rcases List.eq_nil_or_concat xs with rfl | ⟨zs, x, rfl⟩
  · cases ys with
    | nil =>
      refine ⟨?_, ?_⟩
      · rw [hnext a]
        simp [List.getLastD_nil, List.headD_nil]
      · rw [hprev b]
        simp [List.getLastD_nil, List.headD_nil]
    | cons y ys' =>
      obtain ⟨-, -, h2tail⟩ := h2
      simp only [List.nodup_cons] at hys
      have hbyne : b ≠ y ∧ b ∉ ys' := by
        simp only [List.mem_cons] at hby
        push_neg at hby
        exact hby
      refine ⟨?_, ?_, ?_⟩
      · rw [hnext a]
        simp [List.getLastD_nil, List.headD_cons]
      · rw [hprev y]
        simp [List.getLastD_nil, List.headD_cons]
      · refine chainOk_frame (fun i hi => ?_) (fun i hi => ?_) h2tail
        · rw [hnext i, if_neg]
          simp only [List.getLastD_nil]
          intro hia
          subst hia
          exact hay hi
        · rw [hprev i, if_neg]
          simp only [List.headD_cons]
          intro hiy
          subst hiy
          simp only [List.mem_append, List.mem_singleton] at hi
          rcases hi with hi | hi
          · exact hys.1 hi
          · exact hbyne.1 hi.symm
  · simp only [List.concat_eq_append] at h1 hxs hax hbx hdisj hnext hprev ⊢
    have hgl : (zs ++ [x]).getLastD a = x := List.getLastD_concat a x zs
    rw [hgl] at hnext hprev
    have hxzs : x ∉ zs := by
      have := List.disjoint_of_nodup_append hxs
      intro hx
      exact this hx (by simp)
    have hzsnd : zs.Nodup := hxs.of_append_left
    have haz : a ∉ zs := fun hz => hax (by simp [hz])
    have hbz : b ∉ zs := fun hz => hbx (by simp [hz])
    have hax' : a ≠ x := fun hh => hax (by simp [hh])
    have hbx' : b ≠ x := fun hh => hbx (by simp [hh])
    have hxys : x ∉ ys := hdisj x (by simp)
    have hzys : ∀ u ∈ zs, u ∉ ys := fun u hu => hdisj u (by simp [hu])
    have hsplit := (@chainOk_append K V _ s a x m zs []).1 (by simpa using h1)
    have hfront : chainOk s' a zs x := by
      refine chainOk_frame (fun i hi => ?_) (fun i hi => ?_) hsplit.1
      · rw [hnext i, if_neg]
        intro hix
        subst hix
        rcases List.mem_cons.1 hi with hh | hh
        · exact hax' hh.symm
        · exact hxzs hh
      · rw [hprev i, if_neg]
        intro hiq
        cases ys with
        | nil =>
          simp only [List.headD_nil] at hiq
          subst hiq
          simp only [List.mem_append, List.mem_singleton] at hi
          rcases hi with hi | hi
          · exact hbz hi
          · exact hbx' hi
        | cons y ys' =>
          simp only [List.headD_cons] at hiq
          subst hiq
          simp only [List.mem_append, List.mem_singleton] at hi
          rcases hi with hi | hi
          · exact hzys i hi (by simp)
          · exact hxys (by simp [hi])
    cases ys with
    | nil =>
      have hres : chainOk s' a (zs ++ x :: []) b := by
        rw [chainOk_append]
        refine ⟨hfront, ?_, ?_⟩
        · rw [hnext x, if_pos rfl]
          simp [List.headD_nil]
        · rw [hprev b]
          simp [List.headD_nil]
      simpa using hres
    | cons y ys' =>
      obtain ⟨-, -, h2tail⟩ := h2
      simp only [List.nodup_cons] at hys
      have hbyne : b ≠ y ∧ b ∉ ys' := by
        simp only [List.mem_cons] at hby
        push_neg at hby
        exact hby
      have hxy : x ≠ y := fun hh => hxys (by simp [hh])
      have hback : chainOk s' y ys' b := by
        refine chainOk_frame (fun i hi => ?_) (fun i hi => ?_) h2tail
        · rw [hnext i, if_neg]
          intro hix
          subst hix
          exact hxys hi
        · rw [hprev i, if_neg]
          simp only [List.headD_cons]
          intro hiy
          subst hiy
          simp only [List.mem_append, List.mem_singleton] at hi
          rcases hi with hi | hi
          · exact hys.1 hi
          · exact hbyne.1 hi.symm
      have hres : chainOk s' a (zs ++ x :: (y :: ys')) b := by
        rw [chainOk_append]
        refine ⟨hfront, ?_, ?_, hback⟩
        · rw [hnext x, if_pos rfl]
          simp [List.headD_cons]
        · rw [hprev y]
          simp [List.headD_cons]
      simpa using hres

/-- Linking a fresh node `m` between `a` and the old successor of `a`:
the chain gains `m` at its front position. -/
theorem chain_insert {s s' : LRUCacheWithTTL K V} {a b m : Nat} {xs : List Nat}
    (h : chainOk s a xs b)
    (hxs : xs.Nodup) (hax : a ∉ xs) (hbx : b ∉ xs)
    (hma : m ≠ a) (hmb : m ≠ b) (hmx : m ∉ xs)
    (hnext : ∀ i, nextOf s' i =
      if i = a then some m else if i = m then some (xs.headD b) else nextOf s i)
    (hprev : ∀ i, prevOf s' i =
      if i = xs.headD b then some m else if i = m then some a else prevOf s i) :
    chainOk s' a (m :: xs) b := by
  have hmq : m ≠ xs.headD b := by
    cases xs with
    | nil => simpa [List.headD_nil] using hmb
    | cons y ys =>
      simp only [List.headD_cons]
      intro hh
      exact hmx (by simp [hh])
  refine ⟨?_, ?_, ?_⟩
  · rw [hnext a, if_pos rfl]
  · rw [hprev m, if_neg hmq, if_pos rfl]
  · cases xs with
    | nil =>
      refine ⟨?_, ?_⟩
      · rw [hnext m, if_neg hma, if_pos rfl]
        simp [List.headD_nil]
      · rw [hprev b]
        simp [List.headD_nil]
    | cons y ys =>
      simp only [List.nodup_cons] at hxs
      have hax' : a ≠ y ∧ a ∉ ys := by
        simp only [List.mem_cons] at hax
        push_neg at hax
        exact hax
      have hbx' : b ≠ y ∧ b ∉ ys := by
        simp only [List.mem_cons] at hbx
        push_neg at hbx
        exact hbx
      have hmx' : m ≠ y ∧ m ∉ ys := by
        simp only [List.mem_cons] at hmx
        push_neg at hmx
        exact hmx
      refine ⟨?_, ?_, ?_⟩
      · rw [hnext m, if_neg hma, if_pos rfl]
        simp [List.headD_cons]
      · rw [hprev y]
        simp [List.headD_cons]
      · refine chainOk_frame (fun i hi => ?_) (fun i hi => ?_) h.2.2
        · rw [hnext i, if_neg, if_neg]
          · intro him
            subst him
            rcases List.mem_cons.1 hi with hh | hh
            · exact hmx'.1 hh
            · exact hmx'.2 hh
          · intro hia
            subst hia
            rcases List.mem_cons.1 hi with hh | hh
            · exact hax'.1 hh
            · exact hax'.2 hh
        · rw [hprev i, if_neg, if_neg]
          · intro him
            subst him
            simp only [List.mem_append, List.mem_singleton] at hi
            rcases hi with hi | hi
            · exact hmx'.2 hi
            · exact hmb hi
          · simp only [List.headD_cons]
            intro hiy
            subst hiy
            simp only [List.mem_append, List.mem_singleton] at hi
            rcases hi with hi | hi
            · exact hxs.1 hi
            · exact hbx'.1 hi.symm

/-! ## Characterizations of the pointer operations -/

theorem exists_getElem? {α : Type _} {l : List α} {i : Nat} (h : i < l.length) :
    ∃ x, l[i]? = some x := by
  rw [List.getElem?_eq_getElem h]
  exact ⟨_, rfl⟩

theorem lt_of_getElem?_eq_some {α : Type _} {l : List α} {i : Nat} {x : α}
    (h : l[i]? = some x) : i < l.length := by
  by_contra hn
  rw [List.getElem?_eq_none (Nat.le_of_not_lt hn)] at h
  exact Option.noConfusion h

/-- Effect of `_remove_node` on a node whose neighbours `p` (before) and
`q` (after) are distinct and allocated: the call succeeds, `p.next` now
skips to `q`, `q.prev` skips back to `p`, and every other field of every
node — in particular every key, value and expiry — is untouched. -/
theorem remove_node_spec {s : LRUCacheWithTTL K V} {nid p q : Nat} {n : Node K V}
    (hn : s.nodes[nid]? = some n) (hp : n.prev = some p) (hq : n.next = some q)
    (hplt : p < s.nodes.length) (hqlt : q < s.nodes.length) (hpq : p ≠ q) :
    ∃ s', _remove_node s nid = .ok s' ∧
      s'.cache = s.cache ∧ s'.capacity = s.capacity ∧
      s'.nodes.length = s.nodes.length ∧
      (∀ i, nextOf s' i = if i = p then some q else nextOf s i) ∧
      (∀ i, prevOf s' i = if i = q then some p else prevOf s i) ∧
      (∀ i, keyOf s' i = keyOf s i) ∧
      (∀ i, valOf s' i = valOf s i) ∧
      (∀ i, expOf s' i = expOf s i) := by
  obtain ⟨pn, hpn⟩ := exists_getElem? hplt
  obtain ⟨qn, hqn⟩ := exists_getElem? hqlt
  have hqn1 : (s.nodes.set p { pn with next := some q })[q]? = some qn := by
    rw [List.getElem?_set_ne hpq, hqn]
  have hqlt1 : q < (s.nodes.set p { pn with next := some q }).length := by
    rw [List.length_set]
    exact hqlt
  refine ⟨setNode (setNode s p { pn with next := some q }) q { qn with prev := some p },
    ?_, rfl, rfl, by simp [setNode], ?_⟩
  · simp only [_remove_node, setNode, hn, hp, hpn, hq, hqn1]
  have hnodes : ∀ i,
      (setNode (setNode s p { pn with next := some q }) q
        { qn with prev := some p }).nodes[i]? =
      if i = q then some { qn with prev := some p }
      else if i = p then some { pn with next := some q }
      else s.nodes[i]? := by
    intro i
    by_cases hiq : i = q
    · rw [hiq, if_pos rfl]
      exact List.getElem?_set_eq hqlt1
    · rw [if_neg hiq]
      by_cases hip : i = p
      · rw [hip, if_pos rfl]
        exact (List.getElem?_set_ne (fun h : q = p => hpq h.symm)).trans
          (List.getElem?_set_eq hplt)
      · rw [if_neg hip]
        exact (List.getElem?_set_ne (fun h : q = i => hiq h.symm)).trans
          (List.getElem?_set_ne (fun h : p = i => hip h.symm))
  refine ⟨fun i => ?_, fun i => ?_, fun i => ?_, fun i => ?_, fun i => ?_⟩ <;>
    · simp only [nextOf, prevOf, keyOf, valOf, expOf, hnodes i]
      by_cases hiq : i = q
      · subst hiq
        simp [if_neg (fun h : i = p => hpq h.symm), hqn]
      · by_cases hip : i = p
        · subst hip
          simp [hiq, hpn]
        · simp [hiq, hip]

/-- Effect of `_add_to_head` on an allocated node `nid` distinct from the
head sentinel and from the head's current successor `hn`: the call
succeeds, `nid` is linked between the head and `hn`, and every key, value
and expiry is untouched. -/
theorem add_to_head_spec {s : LRUCacheWithTTL K V} {nid hn : Nat} {n : Node K V}
    (hnn : s.nodes[nid]? = some n) (hh : nextOf s 0 = some hn)
    (hlt0 : 0 < s.nodes.length) (hhnlt : hn < s.nodes.length)
    (h0nid : nid ≠ 0) (hhn0 : hn ≠ 0) (hhnnid : hn ≠ nid) :
    ∃ s', _add_to_head s nid = .ok s' ∧
      s'.cache = s.cache ∧ s'.capacity = s.capacity ∧
      s'.nodes.length = s.nodes.length ∧
      (∀ i, nextOf s' i =
        if i = 0 then some nid else if i = nid then some hn else nextOf s i) ∧
      (∀ i, prevOf s' i =
        if i = hn then some nid else if i = nid then some 0 else prevOf s i) ∧
      (∀ i, keyOf s' i = keyOf s i) ∧
      (∀ i, valOf s' i = valOf s i) ∧
      (∀ i, expOf s' i = expOf s i) := by
  obtain ⟨h, hh0⟩ := exists_getElem? hlt0
  obtain ⟨m, hmm⟩ := exists_getElem? hhnlt
  have hnidlt : nid < s.nodes.length := lt_of_getElem?_eq_some hnn
  have ha5 : h.next = some hn := by
    rw [nextOf, hh0] at hh
    exact hh
  have ha2 : (s.nodes.set nid { n with prev := some 0 })[0]? = some h := by
    rw [List.getElem?_set_ne h0nid, hh0]
  have ha3 : (s.nodes.set nid { n with prev := some 0 })[nid]? =
      some { n with prev := some 0 } := List.getElem?_set_eq hnidlt
  have ha4 : ((s.nodes.set nid { n with prev := some 0 }).set nid
      { n with prev := some 0, next := some hn })[0]? = some h := by
    rw [List.getElem?_set_ne h0nid]
    exact ha2
  have ha6 : ((s.nodes.set nid { n with prev := some 0 }).set nid
      { n with prev := some 0, next := some hn })[hn]? = some m := by
    rw [List.getElem?_set_ne (fun hh : nid = hn => hhnnid hh.symm),
      List.getElem?_set_ne (fun hh : nid = hn => hhnnid hh.symm), hmm]
  have ha7 : (((s.nodes.set nid { n with prev := some 0 }).set nid
      { n with prev := some 0, next := some hn }).set hn
      { m with prev := some nid })[0]? = some h := by
    rw [List.getElem?_set_ne hhn0]
    exact ha4
  refine ⟨setNode (setNode (setNode (setNode s nid { n with prev := some 0 }) nid
      { n with prev := some 0, next := some hn }) hn { m with prev := some nid }) 0
      { h with next := some nid },
    ?_, rfl, rfl, by simp [setNode], ?_⟩
  · simp only [_add_to_head, setNode, hnn, ha2, ha3, ha4, ha5, ha6, ha7]
  have hlen3 : (((s.nodes.set nid { n with prev := some 0 }).set nid
      { n with prev := some 0, next := some hn }).set hn
      { m with prev := some nid }).length = s.nodes.length := by
    simp
  have hnodes : ∀ i,
      (setNode (setNode (setNode (setNode s nid { n with prev := some 0 }) nid
        { n with prev := some 0, next := some hn }) hn { m with prev := some nid }) 0
        { h with next := some nid }).nodes[i]? =
      if i = 0 then some { h with next := some nid }
      else if i = nid then some { n with prev := some 0, next := some hn }
      else if i = hn then some { m with prev := some nid }
      else s.nodes[i]? := by
    intro i
    simp only [setNode]
    by_cases hi0 : i = 0
    · rw [hi0, if_pos rfl]
      exact List.getElem?_set_eq (by simp [setNode, hlt0])
    · rw [if_neg hi0]
      by_cases hinid : i = nid
      · rw [hinid, if_pos rfl]
        show ((((s.nodes.set nid _).set nid _).set hn _).set 0 _)[nid]? = _
        rw [List.getElem?_set_ne (fun hh : (0 : Nat) = nid => h0nid hh.symm),
          List.getElem?_set_ne hhnnid]
        exact List.getElem?_set_eq (by rw [List.length_set]; exact hnidlt)
      · rw [if_neg hinid]
        by_cases hihn : i = hn
        · rw [hihn, if_pos rfl]
          rw [List.getElem?_set_ne (fun hh : (0 : Nat) = hn => hhn0 hh.symm)]
          exact List.getElem?_set_eq (by simp [hhnlt])
        · rw [if_neg hihn]
          rw [List.getElem?_set_ne (fun hh : (0 : Nat) = i => hi0 hh.symm),
            List.getElem?_set_ne (fun hh : hn = i => hihn hh.symm),
            List.getElem?_set_ne (fun hh : nid = i => hinid hh.symm),
            List.getElem?_set_ne (fun hh : nid = i => hinid hh.symm)]
  have hz_nid : ¬ (0 : Nat) = nid := fun hh => h0nid hh.symm
  have hz_hn : ¬ (0 : Nat) = hn := fun hh => hhn0 hh.symm
  have hnid_hn : ¬ nid = hn := fun hh => hhnnid hh.symm
  refine ⟨fun i => ?_, fun i => ?_, fun i => ?_, fun i => ?_, fun i => ?_⟩ <;>
    · simp only [nextOf, prevOf, keyOf, valOf, expOf, hnodes i]
      by_cases hi0 : i = 0
      · rw [hi0]
        simp [hz_nid, hz_hn, hh0]
      · by_cases hinid : i = nid
        · rw [hinid]
          simp [h0nid, hnid_hn, hnn]
        · by_cases hihn : i = hn
          · rw [hihn]
            simp [hhn0, hhnnid, hmm]
          · simp [hi0, hinid, hihn]

/-- Overwriting `node.value` and `node.expire_time` in place (the
update branch of `put`) changes nothing but that node's value/expiry. -/
theorem setNode_update_spec {s : LRUCacheWithTTL K V} {nid : Nat} {n : Node K V}
    (hn : s.nodes[nid]? = some n) (v : V) (e : Nat) :
    (setNode s nid { n with value := some v, expire_time := e }).cache = s.cache ∧
    (setNode s nid { n with value := some v, expire_time := e }).capacity = s.capacity ∧
    (setNode s nid { n with value := some v, expire_time := e }).nodes.length =
      s.nodes.length ∧
    (∀ i, nextOf (setNode s nid { n with value := some v, expire_time := e }) i =
      nextOf s i) ∧
    (∀ i, prevOf (setNode s nid { n with value := some v, expire_time := e }) i =
      prevOf s i) ∧
    (∀ i, keyOf (setNode s nid { n with value := some v, expire_time := e }) i =
      keyOf s i) ∧
    (∀ i, valOf (setNode s nid { n with value := some v, expire_time := e }) i =
      if i = nid then some v else valOf s i) ∧
    (∀ i, expOf (setNode s nid { n with value := some v, expire_time := e }) i =
      if i = nid then some e else expOf s i) := by
  have hlt : nid < s.nodes.length := lt_of_getElem?_eq_some hn
  have hnodes : ∀ i, (setNode s nid { n with value := some v, expire_time := e }).nodes[i]? =
      if i = nid then some { n with value := some v, expire_time := e }
      else s.nodes[i]? := by
    intro i
    simp only [setNode]
    by_cases hi : i = nid
    · rw [hi, if_pos rfl]
      exact List.getElem?_set_eq hlt
    · rw [if_neg hi]
      exact List.getElem?_set_ne (fun hh : nid = i => hi hh.symm)
  refine ⟨rfl, rfl, by simp [setNode], fun i => ?_, fun i => ?_, fun i => ?_,
    fun i => ?_, fun i => ?_⟩ <;>
    · simp only [nextOf, prevOf, keyOf, valOf, expOf, hnodes i]
      by_cases hi : i = nid
      · rw [hi]
        simp [hn]
      · simp [hi]

/-- Allocating a fresh node (`Node(key, value, expire_time)` with `None`
links) at the end of the arena: links of all existing indices are
untouched, and the fresh index carries the given record. -/
theorem alloc_spec (s : LRUCacheWithTTL K V) (k : K) (v : V) (e : Nat) :
    ({ s with nodes := s.nodes ++
        [{ key := some k, value := some v, expire_time := e,
           prev := none, next := none }] } : LRUCacheWithTTL K V).cache = s.cache ∧
    ({ s with nodes := s.nodes ++
        [{ key := some k, value := some v, expire_time := e,
           prev := none, next := none }] } : LRUCacheWithTTL K V).capacity = s.capacity ∧
    ({ s with nodes := s.nodes ++
        [{ key := some k, value := some v, expire_time := e,
           prev := none, next := none }] } : LRUCacheWithTTL K V).nodes.length =
      s.nodes.length + 1 ∧
    (∀ i, nextOf ({ s with nodes := s.nodes ++
        [{ key := some k, value := some v, expire_time := e,
           prev := none, next := none }] }) i = nextOf s i) ∧
    (∀ i, prevOf ({ s with nodes := s.nodes ++
        [{ key := some k, value := some v, expire_time := e,
           prev := none, next := none }] }) i = prevOf s i) ∧
    (∀ i, keyOf ({ s with nodes := s.nodes ++
        [{ key := some k, value := some v, expire_time := e,
           prev := none, next := none }] }) i =
      if i = s.nodes.length then some k else keyOf s i) ∧
    (∀ i, valOf ({ s with nodes := s.nodes ++
        [{ key := some k, value := some v, expire_time := e,
           prev := none, next := none }] }) i =
      if i = s.nodes.length then some v else valOf s i) ∧
    (∀ i, expOf ({ s with nodes := s.nodes ++
        [{ key := some k, value := some v, expire_time := e,
           prev := none, next := none }] }) i =
      if i = s.nodes.length then some e else expOf s i) := by
  have hnodes : ∀ i, (s.nodes ++
      [{ key := some k, value := some v, expire_time := e,
         prev := none, next := none }] : List (Node K V))[i]? =
      if i = s.nodes.length then
        some { key := some k, value := some v, expire_time := e,
               prev := none, next := none }
      else s.nodes[i]? := by
    intro i
    by_cases hi : i = s.nodes.length
    · rw [hi, if_pos rfl]
      exact List.getElem?_concat_length _ _
    · rw [if_neg hi]
      rcases Nat.lt_or_ge i s.nodes.length with hlt | hge
      · rw [List.getElem?_append, if_pos hlt]
      · have hgt : s.nodes.length < i := Nat.lt_of_le_of_ne hge (fun hh => hi hh.symm)
        rw [List.getElem?_append_right (Nat.le_of_lt hgt),
          List.getElem?_eq_none (le_of_not_lt (by simp; omega)),
          List.getElem?_eq_none (Nat.le_of_lt hgt)]
  refine ⟨rfl, rfl, by simp, fun i => ?_, fun i => ?_, fun i => ?_,
    fun i => ?_, fun i => ?_⟩ <;>
    · simp only [nextOf, prevOf, keyOf, valOf, expOf, hnodes i]
      by_cases hi : i = s.nodes.length
      · rw [hi]
        simp [List.getElem?_eq_none (Nat.le_refl _)]
      · simp [hi]

/-! ## Helpers for the representation invariant -/

theorem forallTwo_append {α β : Type _} {R : α → β → Prop} :
    ∀ {a₁ a₂ : List α} {b₁ b₂ : List β},
      List.Forall₂ R a₁ b₁ → List.Forall₂ R a₂ b₂ →
      List.Forall₂ R (a₁ ++ a₂) (b₁ ++ b₂) := by
  intro a₁ a₂ b₁ b₂ h1 h2
  induction h1 with
  | nil => exact h2
  | cons hr _ ih => exact List.Forall₂.cons hr ih

theorem forallTwo_split {α β : Type _} {R : α → β → Prop} :
    ∀ {a₁ : List α} {b₁ : List β} {x : α} {a₂ : List α} {y : β} {b₂ : List β},
      List.Forall₂ R (a₁ ++ x :: a₂) (b₁ ++ y :: b₂) → a₁.length = b₁.length →
      List.Forall₂ R a₁ b₁ ∧ R x y ∧ List.Forall₂ R a₂ b₂ := by
  intro a₁
  induction a₁ with
  | nil =>
    intro b₁ x a₂ y b₂ h hlen
    cases b₁ with
    | nil =>
      rcases List.forall₂_cons.1 h with ⟨hr, ht⟩
      exact ⟨List.Forall₂.nil, hr, ht⟩
    | cons b bs => simp at hlen
  | cons a as ih =>
    intro b₁ x a₂ y b₂ h hlen
    cases b₁ with
    | nil => simp at hlen
    | cons b bs =>
      rcases List.forall₂_cons.1 h with ⟨hr, ht⟩
      simp only [List.length_cons, Nat.succ_inj] at hlen
      obtain ⟨h1, h2, h3⟩ := ih ht hlen
      exact ⟨List.Forall₂.cons hr h1, h2, h3⟩

theorem forallTwo_mem_left {α β : Type _} {R : α → β → Prop} {a : List α} {b : List β}
    (h : List.Forall₂ R a b) : ∀ x ∈ a, ∃ y, y ∈ b ∧ R x y := by
  induction h with
  | nil => simp
  | cons hr _ ih =>
    intro x hx
    rcases List.mem_cons.1 hx with rfl | hx
    · exact ⟨_, by simp, hr⟩
    · obtain ⟨y, hy, hr'⟩ := ih x hx
      exact ⟨y, List.mem_cons_of_mem _ hy, hr'⟩

theorem getLastD_cases {α : Type _} (l : List α) (d : α) :
    l.getLastD d = d ∨ l.getLastD d ∈ l := by
  rcases List.eq_nil_or_concat l with rfl | ⟨zs, x, rfl⟩
  · exact Or.inl rfl
  · right
    simp only [List.concat_eq_append, List.getLastD_concat]
    simp

theorem headD_cases {α : Type _} (l : List α) (d : α) :
    l.headD d = d ∨ l.headD d ∈ l := by
  cases l with
  | nil => exact Or.inl rfl
  | cons x xs =>
    right
    simp [List.headD_cons]

theorem entries_congr {s s' : LRUCacheWithTTL K V} {ids : List Nat}
    {l : List (K × V × Nat)}
    (hkey : ∀ i, keyOf s' i = keyOf s i) (hval : ∀ i, valOf s' i = valOf s i)
    (hexp : ∀ i, expOf s' i = expOf s i)
    (h : List.Forall₂ (entryMatches s) ids l) :
    List.Forall₂ (entryMatches s') ids l :=
  h.imp fun i e hm => ⟨(hkey i).trans hm.1, (hval i).trans hm.2.1, (hexp i).trans hm.2.2⟩

theorem ReprOK.length_eq {s : LRUCacheWithTTL K V} {ids : List Nat}
    {l : List (K × V × Nat)} (h : ReprOK s ids l) : ids.length = l.length :=
  h.entries.length_eq

theorem ReprOK.ids_lt {s : LRUCacheWithTTL K V} {ids : List Nat}
    {l : List (K × V × Nat)} (h : ReprOK s ids l) :
    ∀ i ∈ ids, i < s.nodes.length := by
  intro i hi
  obtain ⟨e, -, he⟩ := forallTwo_mem_left h.entries i hi
  obtain ⟨n, hn, -⟩ := Option.bind_eq_some.1 he.1
  exact lt_of_getElem?_eq_some hn

theorem lookupIdx_erase_ne {ids₁ ids₂ : List Nat} {l₁ l₂ : List (K × V × Nat)}
    {k k' : K} {v : V} {e nid : Nat}
    (hlen : ids₁.length = l₁.length) (hne : k' ≠ k) :
    lookupIdx (ids₁ ++ nid :: ids₂) (l₁ ++ (k, v, e) :: l₂) k' =
      lookupIdx (ids₁ ++ ids₂) (l₁ ++ l₂) k' := by
  rw [lookupIdx_append hlen, lookupIdx_append hlen, lookupIdx_cons,
    if_neg (fun hh : k = k' => hne hh.symm)]

theorem withCache_nextOf (s : LRUCacheWithTTL K V) (c : List (K × Nat)) (i : Nat) :
    nextOf { s with cache := c } i = nextOf s i := rfl

theorem withCache_prevOf (s : LRUCacheWithTTL K V) (c : List (K × Nat)) (i : Nat) :
    prevOf { s with cache := c } i = prevOf s i := rfl

theorem withCache_keyOf (s : LRUCacheWithTTL K V) (c : List (K × Nat)) (i : Nat) :
    keyOf { s with cache := c } i = keyOf s i := rfl

theorem withCache_valOf (s : LRUCacheWithTTL K V) (c : List (K × Nat)) (i : Nat) :
    valOf { s with cache := c } i = valOf s i := rfl

theorem withCache_expOf (s : LRUCacheWithTTL K V) (c : List (K × Nat)) (i : Nat) :
    expOf { s with cache := c } i = expOf s i := rfl

theorem withCache_nodes (s : LRUCacheWithTTL K V) (c : List (K × Nat)) :
    ({ s with cache := c } : LRUCacheWithTTL K V).nodes = s.nodes := rfl

theorem withCache_chainOk (s : LRUCacheWithTTL K V) (c : List (K × Nat)) (a : Nat)
    (xs : List Nat) (b : Nat) :
    chainOk { s with cache := c } a xs b ↔ chainOk s a xs b := by
  induction xs generalizing a with
  | nil => exact Iff.rfl
  | cons x xs ih => simp [chainOk, ih, withCache_nextOf, withCache_prevOf]

theorem withCache_entryMatches (s : LRUCacheWithTTL K V) (c : List (K × Nat)) :
    entryMatches ({ s with cache := c } : LRUCacheWithTTL K V) = entryMatches s := rfl

/-- The shared core of every physical removal in the module
(`get` on an expired key, each step of `_cleanup_expired`, and the
eviction step of `put`): unlink the node of key `k` and delete `k` from
the dict.  The result represents `absRemove k l`. -/
theorem remove_sim {s : LRUCacheWithTTL K V} {ids : List Nat} {l : List (K × V × Nat)}
    {k : K} {nid : Nat}
    (h : ReprOK s ids l) (hk : dictLookup s.cache k = some nid) :
    ∃ s' ids', _remove_node s nid = .ok s' ∧ s'.cache = s.cache ∧
      s'.capacity = s.capacity ∧ s'.nodes.length = s.nodes.length ∧
      (∀ i, keyOf s' i = keyOf s i) ∧ (∀ i, valOf s' i = valOf s i) ∧
      (∀ i, expOf s' i = expOf s i) ∧
      ReprOK { s' with cache := dictDelete s'.cache k } ids' (absRemove k l) := by
  have hlk : lookupIdx ids l k = some nid := (h.cache_lookup k).symm.trans hk
  obtain ⟨ids₁, ids₂, l₁, l₂, v, e, hids, hl, hlen1, hknotin⟩ := lookupIdx_split hlk
  subst hids
  subst hl
  have hnodup := h.ids_nodup
  have h0 := h.head_notin
  have h1 := h.tail_notin
  rw [List.nodup_append] at hnodup
  obtain ⟨hnd₁, hnd₂', hdisj'⟩ := hnodup
  rw [List.nodup_cons] at hnd₂'
  obtain ⟨hnidni₂, hnd₂⟩ := hnd₂'
  have h0₁ : 0 ∉ ids₁ := fun hh => h0 (by simp [hh])
  have h0₂ : 0 ∉ ids₂ := fun hh => h0 (by simp [hh])
  have h1₁ : 1 ∉ ids₁ := fun hh => h1 (by simp [hh])
  have h1₂ : 1 ∉ ids₂ := fun hh => h1 (by simp [hh])
  have hd12 : ∀ u ∈ ids₁, u ∉ ids₂ := fun u hu hv => hdisj' hu (by simp [hv])
  -- the chain around nid
  have hchain := h.chain
  rw [chainOk_append] at hchain
  obtain ⟨hcl, hcr⟩ := hchain
  have hprevnid : prevOf s nid = some (ids₁.getLastD 0) := chainOk_prevOf hcl
  have hnextnid : nextOf s nid = some (ids₂.headD 1) := chainOk_nextOf hcr
  obtain ⟨n, hn, hnprev⟩ := Option.bind_eq_some.1 hprevnid
  have hnnext : n.next = some (ids₂.headD 1) := by
    rw [nextOf, hn] at hnextnid
    exact hnextnid
  -- facts about p := ids₁.getLastD 0 and q := ids₂.headD 1
  have hplt : ids₁.getLastD 0 < s.nodes.length := by
    rcases getLastD_cases ids₁ 0 with hp | hp
    · rw [hp]
      exact Nat.lt_of_lt_of_le (by norm_num) h.two_le
    · exact h.ids_lt _ (List.mem_append_left _ hp)
  have hqlt : ids₂.headD 1 < s.nodes.length := by
    rcases headD_cases ids₂ 1 with hq | hq
    · rw [hq]
      exact Nat.lt_of_lt_of_le (by norm_num) h.two_le
    · exact h.ids_lt _ (List.mem_append_right _ (List.mem_cons_of_mem _ hq))
  have hq0 : ids₂.headD 1 ≠ 0 := by
    rcases headD_cases ids₂ 1 with hq | hq
    · rw [hq]; norm_num
    · exact fun hh => h0₂ (hh ▸ hq)
  have hp1 : ids₁.getLastD 0 ≠ 1 := by
    rcases getLastD_cases ids₁ 0 with hp | hp
    · rw [hp]; norm_num
    · exact fun hh => h1₁ (hh ▸ hp)
  have hpq : ids₁.getLastD 0 ≠ ids₂.headD 1 := by
    rcases getLastD_cases ids₁ 0 with hp | hp <;> rcases headD_cases ids₂ 1 with hq | hq
    · rw [hp, hq]; norm_num
    · rw [hp]; exact fun hh => h0₂ (hh ▸ hq)
    · rw [hq]; exact hp1
    · exact fun hh => hd12 _ hp (hh ▸ hq)
  obtain ⟨s', hrun, hcache, hcap, hlen, hnext, hprev, hkey, hval, hexp⟩ :=
    remove_node_spec hn hnprev hnnext hplt hqlt hpq
  -- the split of the entries
  obtain ⟨he₁, hemid, he₂⟩ := forallTwo_split h.entries hlen1
  have hlkeys := h.lkeys_nodup
  have hck := h.cache_keys_nodup
  have hclen := h.cache_len
  have hkmem : k ∈ s.cache.map Prod.fst := by
    have := dictLookup_mem hk
    exact List.mem_map.2 ⟨(k, nid), this, rfl⟩
  have hknotin₂ : k ∉ l₂.map Prod.fst := by
    have h2 := hlkeys
    rw [List.map_append, List.nodup_append] at h2
    have h3 := h2.2.1
    rw [List.map_cons, List.nodup_cons] at h3
    exact h3.1
  have habs : absRemove k (l₁ ++ (k, v, e) :: l₂) = l₁ ++ l₂ := absRemove_split hknotin
  refine ⟨s', ids₁ ++ ids₂, hrun, hcache, hcap, hlen, hkey, hval, hexp, ?_⟩
  rw [habs, hcache]
  refine ⟨?_, ?_, ?_, ?_, ?_, ?_, ?_, ?_, ?_, ?_, ?_, ?_, ?_, ?_⟩ <;>
    try simp only [withCache_nextOf, withCache_prevOf, withCache_keyOf, withCache_valOf,
      withCache_expOf, withCache_nodes, withCache_chainOk, withCache_entryMatches]
  · rw [List.nodup_append]
    exact ⟨hnd₁, hnd₂, fun u hu => hd12 u hu⟩
  · simp only [List.mem_append]
    push_neg
    exact ⟨h0₁, h0₂⟩
  · simp only [List.mem_append]
    push_neg
    exact ⟨h1₁, h1₂⟩
  · rw [hlen]
    exact h.two_le
  · rw [hprev 0, if_neg (fun hh => hq0 hh.symm)]
    exact h.head_prev
  · rw [hkey 0]
    exact h.head_key
  · rw [hnext 1, if_neg (fun hh => hp1 hh.symm)]
    exact h.tail_next
  · rw [hkey 1]
    exact h.tail_key
  · exact chain_remove hcl hcr hnd₁ hnd₂ h0₁ h0₂ h1₁ h1₂ hd12 hnext hprev
  · exact entries_congr hkey hval hexp (forallTwo_append he₁ he₂)
  · exact (dictDelete_map_fst_sublist s.cache k).nodup hck
  · have hsub : ((l₁ ++ l₂).map Prod.fst).Sublist
        ((l₁ ++ (k, v, e) :: l₂).map Prod.fst) :=
      ((List.sublist_cons_self (k, v, e) l₂).append_left l₁).map Prod.fst
    exact hsub.nodup hlkeys
  · intro k'
    rw [dictDelete_lookup hck k k']
    by_cases hkk : k' = k
    · rw [if_pos hkk, hkk]
      symm
      rw [lookupIdx_eq_none (by simp [hlen1, (forallTwo_split h.entries hlen1).2.2.length_eq])]
      simp only [List.map_append, List.mem_append]
      push_neg
      exact ⟨hknotin, hknotin₂⟩
    · rw [if_neg hkk, h.cache_lookup k', lookupIdx_erase_ne hlen1 hkk]
  · have hdl := dictDelete_length hkmem
    have : (l₁ ++ (k, v, e) :: l₂).length = l₁.length + l₂.length + 1 := by
      simp
      omega
    rw [hclen] at hdl
    simp only [List.length_append]
    omega

theorem absLookup_split {l₁ l₂ : List (K × V × Nat)} {k : K} {v : V} {e : Nat}
    (hknotin : k ∉ l₁.map Prod.fst) :
    absLookup k (l₁ ++ (k, v, e) :: l₂) = some (v, e) := by
  rw [absLookup_append, absLookup_eq_none.2 hknotin]
  simp [absLookup]

/-- `_move_to_head` on the node of a present key `k`: the record moves to
the MRU position; nothing else (keys, values, expiries, the dict) changes. -/
theorem move_to_head_sim {s : LRUCacheWithTTL K V} {ids : List Nat}
    {l : List (K × V × Nat)} {k : K} {nid : Nat}
    (h : ReprOK s ids l) (hk : dictLookup s.cache k = some nid) :
    ∃ s' ids' v e, absLookup k l = some (v, e) ∧
      _move_to_head s nid = .ok s' ∧ s'.cache = s.cache ∧
      s'.capacity = s.capacity ∧ s'.nodes.length = s.nodes.length ∧
      (∀ i, keyOf s' i = keyOf s i) ∧ (∀ i, valOf s' i = valOf s i) ∧
      (∀ i, expOf s' i = expOf s i) ∧
      ReprOK s' ids' ((k, v, e) :: absRemove k l) := by
  have hlk : lookupIdx ids l k = some nid := (h.cache_lookup k).symm.trans hk
  obtain ⟨ids₁, ids₂, l₁, l₂, v, e, hids, hl, hlen1, hknotin⟩ := lookupIdx_split hlk
  subst hids
  subst hl
  have hnodup := h.ids_nodup
  have h0 := h.head_notin
  have h1 := h.tail_notin
  rw [List.nodup_append] at hnodup
  obtain ⟨hnd₁, hnd₂', hdisj'⟩ := hnodup
  rw [List.nodup_cons] at hnd₂'
  obtain ⟨hnidni₂, hnd₂⟩ := hnd₂'
  have hnidni₁ : nid ∉ ids₁ := fun hh => hdisj' hh (by simp)
  have h0₁ : 0 ∉ ids₁ := fun hh => h0 (by simp [hh])
  have h0₂ : 0 ∉ ids₂ := fun hh => h0 (by simp [hh])
  have h1₁ : 1 ∉ ids₁ := fun hh => h1 (by simp [hh])
  have h1₂ : 1 ∉ ids₂ := fun hh => h1 (by simp [hh])
  have h0nid : 0 ≠ nid := fun hh => h0 (by simp [hh])
  have h1nid : 1 ≠ nid := fun hh => h1 (by simp [hh])
  have hd12 : ∀ u ∈ ids₁, u ∉ ids₂ := fun u hu hv => hdisj' hu (by simp [hv])
  have hchain := h.chain
  rw [chainOk_append] at hchain
  obtain ⟨hcl, hcr⟩ := hchain
  have hprevnid : prevOf s nid = some (ids₁.getLastD 0) := chainOk_prevOf hcl
  have hnextnid : nextOf s nid = some (ids₂.headD 1) := chainOk_nextOf hcr
  obtain ⟨n, hn, hnprev⟩ := Option.bind_eq_some.1 hprevnid
  have hnnext : n.next = some (ids₂.headD 1) := by
    rw [nextOf, hn] at hnextnid
    exact hnextnid
  have hplt : ids₁.getLastD 0 < s.nodes.length := by
    rcases getLastD_cases ids₁ 0 with hp | hp
    · rw [hp]
      exact Nat.lt_of_lt_of_le (by norm_num) h.two_le
    · exact h.ids_lt _ (List.mem_append_left _ hp)
  have hqlt : ids₂.headD 1 < s.nodes.length := by
    rcases headD_cases ids₂ 1 with hq | hq
    · rw [hq]
      exact Nat.lt_of_lt_of_le (by norm_num) h.two_le
    · exact h.ids_lt _ (List.mem_append_right _ (List.mem_cons_of_mem _ hq))
  have hq0 : ids₂.headD 1 ≠ 0 := by
    rcases headD_cases ids₂ 1 with hq | hq
    · rw [hq]; norm_num
    · exact fun hh => h0₂ (hh ▸ hq)
  have hp1 : ids₁.getLastD 0 ≠ 1 := by
    rcases getLastD_cases ids₁ 0 with hp | hp
    · rw [hp]; norm_num
    · exact fun hh => h1₁ (hh ▸ hp)
  have hpq : ids₁.getLastD 0 ≠ ids₂.headD 1 := by
    rcases getLastD_cases ids₁ 0 with hp | hp <;> rcases headD_cases ids₂ 1 with hq | hq
    · rw [hp, hq]; norm_num
    · rw [hp]; exact fun hh => h0₂ (hh ▸ hq)
    · rw [hq]; exact hp1
    · exact fun hh => hd12 _ hp (hh ▸ hq)
  obtain ⟨s₁, hrun1, hcache1, hcap1, hlen1', hnext1, hprev1, hkey1, hval1, hexp1⟩ :=
    remove_node_spec hn hnprev hnnext hplt hqlt hpq
  obtain ⟨he₁, hemid, he₂⟩ := forallTwo_split h.entries hlen1
  -- the chain with nid unlinked
  have hchain1 : chainOk s₁ 0 (ids₁ ++ ids₂) 1 :=
    chain_remove hcl hcr hnd₁ hnd₂ h0₁ h0₂ h1₁ h1₂ hd12 hnext1 hprev1
  -- conditions for re-linking nid at the head
  have hn1 : ∃ n₁, s₁.nodes[nid]? = some n₁ := by
    have hk1 : keyOf s₁ nid = some k := by
      rw [hkey1 nid]
      exact hemid.1
    obtain ⟨n₁, hn₁, -⟩ := Option.bind_eq_some.1 hk1
    exact ⟨n₁, hn₁⟩
  obtain ⟨n₁, hn₁⟩ := hn1
  have hhead1 : nextOf s₁ 0 = some ((ids₁ ++ ids₂).headD 1) := chainOk_nextOf hchain1
  have hlt01 : 0 < s₁.nodes.length := by
    rw [hlen1']
    exact Nat.lt_of_lt_of_le (by norm_num) h.two_le
  have hhd_cases : (ids₁ ++ ids₂).headD 1 = 1 ∨ (ids₁ ++ ids₂).headD 1 ∈ ids₁ ++ ids₂ :=
    headD_cases _ _
  have hhnlt1 : (ids₁ ++ ids₂).headD 1 < s₁.nodes.length := by
    rw [hlen1']
    rcases hhd_cases with hq | hq
    · rw [hq]
      exact Nat.lt_of_lt_of_le (by norm_num) h.two_le
    · rcases List.mem_append.1 hq with hq | hq
      · exact h.ids_lt _ (List.mem_append_left _ hq)
      · exact h.ids_lt _ (List.mem_append_right _ (List.mem_cons_of_mem _ hq))
  have hnid0 : nid ≠ 0 := fun hh => h0nid hh.symm
  have hhn0' : (ids₁ ++ ids₂).headD 1 ≠ 0 := by
    rcases hhd_cases with hq | hq
    · rw [hq]; norm_num
    · intro hh
      rcases List.mem_append.1 hq with hq | hq
      · exact h0₁ (hh ▸ hq)
      · exact h0₂ (hh ▸ hq)
  have hhnnid' : (ids₁ ++ ids₂).headD 1 ≠ nid := by
    rcases hhd_cases with hq | hq
    · rw [hq]; exact h1nid
    · intro hh
      rcases List.mem_append.1 hq with hq | hq
      · exact hnidni₁ (hh ▸ hq)
      · exact hnidni₂ (hh ▸ hq)
  obtain ⟨s₂, hrun2, hcache2, hcap2, hlen2, hnext2, hprev2, hkey2, hval2, hexp2⟩ :=
    add_to_head_spec hn₁ hhead1 hlt01 hhnlt1 hnid0 hhn0' hhnnid'
  have habs : absRemove k (l₁ ++ (k, v, e) :: l₂) = l₁ ++ l₂ := absRemove_split hknotin
  have habsl : absLookup k (l₁ ++ (k, v, e) :: l₂) = some (v, e) := absLookup_split hknotin
  have hlkeys := h.lkeys_nodup
  have hknotin₂ : k ∉ l₂.map Prod.fst := by
    have h2 := hlkeys
    rw [List.map_append, List.nodup_append] at h2
    have h3 := h2.2.1
    rw [List.map_cons, List.nodup_cons] at h3
    exact h3.1
  refine ⟨s₂, nid :: (ids₁ ++ ids₂), v, e, habsl, ?_, hcache2.trans hcache1,
    hcap2.trans hcap1, hlen2.trans hlen1',
    fun i => (hkey2 i).trans (hkey1 i), fun i => (hval2 i).trans (hval1 i),
    fun i => (hexp2 i).trans (hexp1 i), ?_⟩
  · simp only [_move_to_head, hrun1, hrun2]
  rw [habs]
  have hchain2 : chainOk s₂ 0 (nid :: (ids₁ ++ ids₂)) 1 := by
    refine chain_insert hchain1 ?_ ?_ ?_ hnid0 (fun hh => h1nid hh.symm) ?_ hnext2 hprev2
    · rw [List.nodup_append]
      exact ⟨hnd₁, hnd₂, fun u hu => hd12 u hu⟩
    · simp only [List.mem_append]
      push_neg
      exact ⟨h0₁, h0₂⟩
    · simp only [List.mem_append]
      push_neg
      exact ⟨h1₁, h1₂⟩
    · simp only [List.mem_append]
      push_neg
      exact ⟨hnidni₁, hnidni₂⟩
  refine ⟨?_, ?_, ?_, ?_, ?_, ?_, ?_, ?_, hchain2, ?_, ?_, ?_, ?_, ?_⟩
  · rw [List.nodup_cons]
    refine ⟨?_, by rw [List.nodup_append]; exact ⟨hnd₁, hnd₂, fun u hu => hd12 u hu⟩⟩
    simp only [List.mem_append]
    push_neg
    exact ⟨hnidni₁, hnidni₂⟩
  · simp only [List.mem_cons, List.mem_append]
    push_neg
    exact ⟨h0nid, h0₁, h0₂⟩
  · simp only [List.mem_cons, List.mem_append]
    push_neg
    exact ⟨h1nid, h1₁, h1₂⟩
  · rw [hlen2.trans hlen1']
    exact h.two_le
  · rw [hprev2 0, if_neg (fun hh => hhn0' hh.symm), if_neg h0nid,
      hprev1 0, if_neg (fun hh => hq0 hh.symm)]
    exact h.head_prev
  · rw [(hkey2 0).trans (hkey1 0)]
    exact h.head_key
  · rw [hnext2 1, if_neg (by norm_num), if_neg h1nid, hnext1 1,
      if_neg (fun hh => hp1 hh.symm)]
    exact h.tail_next
  · rw [(hkey2 1).trans (hkey1 1)]
    exact h.tail_key
  · refine List.Forall₂.cons ⟨?_, ?_, ?_⟩ ?_
    · rw [(hkey2 nid).trans (hkey1 nid)]
      exact hemid.1
    · rw [(hval2 nid).trans (hval1 nid)]
      exact hemid.2.1
    · rw [(hexp2 nid).trans (hexp1 nid)]
      exact hemid.2.2
    · exact entries_congr (fun i => (hkey2 i).trans (hkey1 i))
        (fun i => (hval2 i).trans (hval1 i)) (fun i => (hexp2 i).trans (hexp1 i))
        (forallTwo_append he₁ he₂)
  · rw [hcache2.trans hcache1]
    exact h.cache_keys_nodup
  · rw [List.map_cons, List.nodup_cons]
    constructor
    · simp only [List.map_append, List.mem_append]
      push_neg
      exact ⟨hknotin, hknotin₂⟩
    · have hsub : ((l₁ ++ l₂).map Prod.fst).Sublist
          ((l₁ ++ (k, v, e) :: l₂).map Prod.fst) :=
        ((List.sublist_cons_self (k, v, e) l₂).append_left l₁).map Prod.fst
      exact hsub.nodup hlkeys
  · intro k'
    rw [hcache2.trans hcache1, h.cache_lookup k', lookupIdx_cons]
    by_cases hkk : k = k'
    · rw [if_pos hkk, ← hkk]
      exact hlk
    · rw [if_neg hkk]
      exact lookupIdx_erase_ne hlen1 (fun hh => hkk hh.symm)
  · rw [hcache2.trans hcache1, h.cache_len]
    simp
    omega

theorem entries_congr_mem {s s' : LRUCacheWithTTL K V} {ids : List Nat}
    {l : List (K × V × Nat)}
    (h : List.Forall₂ (entryMatches s) ids l)
    (hkey : ∀ i ∈ ids, keyOf s' i = keyOf s i)
    (hval : ∀ i ∈ ids, valOf s' i = valOf s i)
    (hexp : ∀ i ∈ ids, expOf s' i = expOf s i) :
    List.Forall₂ (entryMatches s') ids l := by
  induction h with
  | nil => exact List.Forall₂.nil
  | cons hr ht ih =>
    refine List.Forall₂.cons ⟨?_, ?_, ?_⟩ ?_
    · rw [hkey _ (by simp)]
      exact hr.1
    · rw [hval _ (by simp)]
      exact hr.2.1
    · rw [hexp _ (by simp)]
      exact hr.2.2
    · exact ih (fun i hi => hkey i (by simp [hi])) (fun i hi => hval i (by simp [hi]))
        (fun i hi => hexp i (by simp [hi]))

theorem lookupIdx_keys_congr : ∀ {ids : List Nat} {l l' : List (K × V × Nat)} {k : K},
    l.map Prod.fst = l'.map Prod.fst → lookupIdx ids l k = lookupIdx ids l' k := by
  intro ids
  induction ids with
  | nil => intro l l' k _; rw [lookupIdx_nil_left, lookupIdx_nil_left]
  | cons i is ih =>
    intro l l' k hkeys
    cases l with
    | nil =>
      cases l' with
      | nil => rfl
      | cons e' es' => simp at hkeys
    | cons e es =>
      cases l' with
      | nil => simp at hkeys
      | cons e' es' =>
        simp only [List.map_cons, List.cons.injEq] at hkeys
        rw [lookupIdx_cons, lookupIdx_cons, hkeys.1, ih hkeys.2]

/-- The in-place update branch of `put` for an already present key:
value and expiry are overwritten at the same ledger position; every
other record and the whole link structure are untouched. -/
theorem update_entry_sim {s : LRUCacheWithTTL K V} {ids : List Nat}
    {l : List (K × V × Nat)} {k : K} {nid : Nat} {n : Node K V}
    (h : ReprOK s ids l) (hk : dictLookup s.cache k = some nid)
    (hn : s.nodes[nid]? = some n) (v : V) (e' : Nat) :
    ∃ (l₁ l₂ : List (K × V × Nat)) (v₀ : V) (e₀ : Nat),
      l = l₁ ++ (k, v₀, e₀) :: l₂ ∧ k ∉ l₁.map Prod.fst ∧
      ReprOK (setNode s nid { n with value := some v, expire_time := e' }) ids
        (l₁ ++ (k, v, e') :: l₂) := by
  have hlk : lookupIdx ids l k = some nid := (h.cache_lookup k).symm.trans hk
  obtain ⟨ids₁, ids₂, l₁, l₂, v₀, e₀, hids, hl, hlen1, hknotin⟩ := lookupIdx_split hlk
  subst hids
  subst hl
  obtain ⟨hcache, hcap, hlen, hnext, hprev, hkey, hval, hexp⟩ :=
    setNode_update_spec hn v e'
  have hnodup := h.ids_nodup
  rw [List.nodup_append] at hnodup
  obtain ⟨hnd₁, hnd₂', hdisj'⟩ := hnodup
  rw [List.nodup_cons] at hnd₂'
  obtain ⟨hnidni₂, hnd₂⟩ := hnd₂'
  have hnidni₁ : nid ∉ ids₁ := fun hh => hdisj' hh (by simp)
  obtain ⟨he₁, hemid, he₂⟩ := forallTwo_split h.entries hlen1
  have hkeysEq : (l₁ ++ (k, v, e') :: l₂).map Prod.fst =
      (l₁ ++ (k, v₀, e₀) :: l₂).map Prod.fst := by
    simp
  refine ⟨l₁, l₂, v₀, e₀, rfl, hknotin, ?_, ?_, ?_, ?_, ?_, ?_, ?_, ?_, ?_, ?_, ?_,
    ?_, ?_, ?_⟩
  · exact h.ids_nodup
  · exact h.head_notin
  · exact h.tail_notin
  · rw [hlen]
    exact h.two_le
  · rw [hprev 0]
    exact h.head_prev
  · rw [hkey 0]
    exact h.head_key
  · rw [hnext 1]
    exact h.tail_next
  · rw [hkey 1]
    exact h.tail_key
  · exact chainOk_frame (fun i _ => hnext i) (fun i _ => hprev i) h.chain
  · refine forallTwo_append ?_ (List.Forall₂.cons ⟨?_, ?_, ?_⟩ ?_)
    · refine entries_congr_mem he₁ (fun i _ => hkey i) (fun i hi => ?_)
        (fun i hi => ?_)
      · rw [hval i, if_neg (fun hh : i = nid => hnidni₁ (hh ▸ hi))]
      · rw [hexp i, if_neg (fun hh : i = nid => hnidni₁ (hh ▸ hi))]
    · rw [hkey nid]
      exact hemid.1
    · rw [hval nid, if_pos rfl]
    · rw [hexp nid, if_pos rfl]
    · refine entries_congr_mem he₂ (fun i _ => hkey i) (fun i hi => ?_)
        (fun i hi => ?_)
      · rw [hval i, if_neg (fun hh : i = nid => hnidni₂ (hh ▸ hi))]
      · rw [hexp i, if_neg (fun hh : i = nid => hnidni₂ (hh ▸ hi))]
  · rw [hcache]
    exact h.cache_keys_nodup
  · rw [hkeysEq]
    exact h.lkeys_nodup
  · intro k'
    rw [hcache, h.cache_lookup k']
    exact lookupIdx_keys_congr hkeysEq.symm
  · rw [hcache, h.cache_len]
    simp

/-- The insertion step of `put` for a new key `k` whose fresh node is
already allocated at arena index `nid`: `self.cache[key] = new_node`
followed by `_add_to_head(new_node)`.  The record appears at the MRU
position; everything else is untouched. -/
theorem insert_sim {s : LRUCacheWithTTL K V} {ids : List Nat}
    {l : List (K × V × Nat)} {k : K} {nid : Nat} {v : V} {e : Nat}
    (h : ReprOK s ids l) (hfresh : dictLookup s.cache k = none)
    (hkeyn : keyOf s nid = some k) (hvaln : valOf s nid = some v)
    (hexpn : expOf s nid = some e)
    (hnidni : nid ∉ ids) (hnid0 : nid ≠ 0) (hnid1 : nid ≠ 1) :
    ∃ s', _add_to_head { s with cache := dictInsert s.cache k nid } nid = .ok s' ∧
      s'.capacity = s.capacity ∧ s'.cache = s.cache ++ [(k, nid)] ∧
      s'.nodes.length = s.nodes.length ∧
      ReprOK s' (nid :: ids) ((k, v, e) :: l) := by
  have hklnotin : k ∉ l.map Prod.fst := by
    rw [← lookupIdx_eq_none h.length_eq, ← h.cache_lookup k]
    exact hfresh
  have hkcnotin : k ∉ s.cache.map Prod.fst := dictLookup_eq_none.1 hfresh
  obtain ⟨nd, hnd, -⟩ := Option.bind_eq_some.1 hkeyn
  have hIns : ({ s with cache := dictInsert s.cache k nid } :
      LRUCacheWithTTL K V).nodes[nid]? = some nd := hnd
  have hhead : nextOf ({ s with cache := dictInsert s.cache k nid } :
      LRUCacheWithTTL K V) 0 = some (ids.headD 1) := by
    rw [withCache_nextOf]
    exact chainOk_nextOf h.chain
  have hd_cases := headD_cases ids 1
  have hlt0 : 0 < ({ s with cache := dictInsert s.cache k nid } :
      LRUCacheWithTTL K V).nodes.length := by
    rw [withCache_nodes]
    exact Nat.lt_of_lt_of_le (by norm_num) h.two_le
  have hhnlt : ids.headD 1 < ({ s with cache := dictInsert s.cache k nid } :
      LRUCacheWithTTL K V).nodes.length := by
    rw [withCache_nodes]
    rcases hd_cases with hq | hq
    · rw [hq]
      exact Nat.lt_of_lt_of_le (by norm_num) h.two_le
    · exact h.ids_lt _ hq
  have hhn0 : ids.headD 1 ≠ 0 := by
    rcases hd_cases with hq | hq
    · rw [hq]; norm_num
    · exact fun hh => h.head_notin (hh ▸ hq)
  have hhnnid : ids.headD 1 ≠ nid := by
    rcases hd_cases with hq | hq
    · rw [hq]; exact fun hh => hnid1 hh.symm
    · exact fun hh => hnidni (hh ▸ hq)
  obtain ⟨s₂, hrun2, hcache2, hcap2, hlen2, hnext2, hprev2, hkey2, hval2, hexp2⟩ :=
    add_to_head_spec hIns hhead hlt0 hhnlt hnid0 hhn0 hhnnid
  have hcacheIns : ({ s with cache := dictInsert s.cache k nid } :
      LRUCacheWithTTL K V).cache = s.cache ++ [(k, nid)] := dictInsert_fresh nid hfresh
  have hchain2 : chainOk s₂ 0 (nid :: ids) 1 := by
    refine chain_insert ((withCache_chainOk s (dictInsert s.cache k nid) 0 ids 1).2 h.chain) h.ids_nodup
      h.head_notin h.tail_notin hnid0 hnid1 hnidni ?_ ?_
    · intro i
      rw [hnext2 i, withCache_nextOf]
    · intro i
      rw [hprev2 i, withCache_prevOf]
  have hkeyT : ∀ i, keyOf s₂ i = keyOf s i := fun i =>
    (hkey2 i).trans (withCache_keyOf s _ i)
  have hvalT : ∀ i, valOf s₂ i = valOf s i := fun i =>
    (hval2 i).trans (withCache_valOf s _ i)
  have hexpT : ∀ i, expOf s₂ i = expOf s i := fun i =>
    (hexp2 i).trans (withCache_expOf s _ i)
  refine ⟨s₂, hrun2, hcap2, hcache2.trans hcacheIns,
    hlen2.trans (by rw [withCache_nodes]), ?_, ?_, ?_, ?_, ?_, ?_, ?_, ?_, hchain2,
    ?_, ?_, ?_, ?_, ?_⟩
  · rw [List.nodup_cons]
    exact ⟨hnidni, h.ids_nodup⟩
  · simp only [List.mem_cons]
    push_neg
    exact ⟨fun hh => hnid0 hh.symm, h.head_notin⟩
  · simp only [List.mem_cons]
    push_neg
    exact ⟨fun hh => hnid1 hh.symm, h.tail_notin⟩
  · rw [hlen2.trans (by rw [withCache_nodes])]
    exact h.two_le
  · rw [hprev2 0, if_neg (fun hh => hhn0 hh.symm), if_neg (fun hh => hnid0 hh.symm),
      withCache_prevOf]
    exact h.head_prev
  · rw [hkeyT 0]
    exact h.head_key
  · rw [hnext2 1, if_neg (by norm_num), if_neg (fun hh => hnid1 hh.symm),
      withCache_nextOf]
    exact h.tail_next
  · rw [hkeyT 1]
    exact h.tail_key
  · refine List.Forall₂.cons ⟨?_, ?_, ?_⟩ ?_
    · rw [hkeyT nid]
      exact hkeyn
    · rw [hvalT nid]
      exact hvaln
    · rw [hexpT nid]
      exact hexpn
    · exact entries_congr hkeyT hvalT hexpT h.entries
  · rw [hcache2.trans hcacheIns, List.map_append, List.nodup_append]
    refine ⟨h.cache_keys_nodup, by simp, ?_⟩
    intro u hu
    simp only [List.map_cons, List.map_nil, List.mem_singleton]
    exact fun hh => hkcnotin (hh ▸ hu)
  · rw [List.map_cons, List.nodup_cons]
    exact ⟨hklnotin, h.lkeys_nodup⟩
  · intro k'
    rw [hcache2.trans hcacheIns, dictLookup_append, lookupIdx_cons]
    by_cases hkk : k = k'
    · rw [if_pos hkk, ← hkk, hfresh]
      simp [dictLookup]
    · rw [if_neg hkk, h.cache_lookup k']
      have : dictLookup [(k, nid)] k' = none := by
        simp [dictLookup, hkk]
      rw [this]
      rcases hcase : lookupIdx ids l k' with _ | u <;> simp [Option.or]
  · rw [hcache2.trans hcacheIns, List.length_append, h.cache_len]
    simp

theorem absLookup_mem {l : List (K × V × Nat)} {k : K} {v : V} {e : Nat}
    (h : absLookup k l = some (v, e)) : (k, v, e) ∈ l := by
  induction l with
  | nil => simp [absLookup] at h
  | cons ent es ih =>
    by_cases hh : ent.1 = k
    · rw [absLookup_cons, if_pos hh] at h
      injection h with h3
      have h1 : ent.2.1 = v := congrArg Prod.fst h3
      have h2 : ent.2.2 = e := congrArg Prod.snd h3
      refine List.mem_cons.2 (Or.inl ?_)
      rw [← hh, ← h1, ← h2]
    · rw [absLookup_cons, if_neg hh] at h
      exact List.mem_cons_of_mem _ (ih h)

theorem mem_absLookup {l : List (K × V × Nat)} {k : K} {v : V} {e : Nat}
    (hnd : (l.map Prod.fst).Nodup) (h : (k, v, e) ∈ l) :
    absLookup k l = some (v, e) := by
  induction l with
  | nil => simp at h
  | cons ent es ih =>
    rw [List.map_cons, List.nodup_cons] at hnd
    rcases List.mem_cons.1 h with rfl | h
    · rw [absLookup_cons, if_pos rfl]
    · have hke : k ∈ es.map Prod.fst := List.mem_map.2 ⟨(k, v, e), h, rfl⟩
      rw [absLookup_cons, if_neg (fun hh : ent.1 = k => hnd.1 (hh ▸ hke)), ih hnd.2 h]

theorem dictMem_lookup {d : List (K × Nat)} {k : K} {v : Nat}
    (hnd : (d.map Prod.fst).Nodup) (hm : (k, v) ∈ d) : dictLookup d k = some v := by
  induction d with
  | nil => simp at hm
  | cons p rest ih =>
    obtain ⟨a, b⟩ := p
    rw [List.map_cons, List.nodup_cons] at hnd
    rcases List.mem_cons.1 hm with hm | hm
    · obtain ⟨rfl, rfl⟩ : a = k ∧ b = v := by
        constructor <;> injection hm with h1 h2 <;> simp [h1, h2]
      simp [dictLookup]
    · have hke : k ∈ rest.map Prod.fst := List.mem_map.2 ⟨(k, v), hm, rfl⟩
      have hak : ¬ a = k := fun hh => hnd.1 (hh ▸ hke)
      simp [dictLookup, hak, ih hnd.2 hm]

theorem mem_keys_absRemove {l : List (K × V × Nat)} {k u : K}
    (hne : u ≠ k) (hm : u ∈ l.map Prod.fst) :
    u ∈ (absRemove k l).map Prod.fst := by
  induction l with
  | nil => simp at hm
  | cons ent es ih =>
    rcases List.mem_cons.1 hm with hm | hm
    · have hek : ¬ ent.1 = k := fun hh => hne (hm ▸ hh)
      rw [absRemove, if_neg hek]
      simp [hm]
    · by_cases hek : ent.1 = k
      · rw [absRemove, if_pos hek]
        exact hm
      · rw [absRemove, if_neg hek]
        simp only [List.map_cons, List.mem_cons]
        exact Or.inr (ih hm)

theorem absRemove_eq_filter {l : List (K × V × Nat)} {k : K}
    (hnd : (l.map Prod.fst).Nodup) :
    absRemove k l = l.filter (fun e => decide (¬ e.1 = k)) := by
  induction l with
  | nil => rfl
  | cons ent es ih =>
    rw [List.map_cons, List.nodup_cons] at hnd
    by_cases hek : ent.1 = k
    · rw [absRemove, if_pos hek]
      rw [List.filter_cons_of_neg (by simp [hek])]
      symm
      rw [List.filter_eq_self]
      intro e he
      simp only [decide_eq_true_eq]
      intro hh
      exact hnd.1 (by
        rw [hek, ← hh]
        exact List.mem_map.2 ⟨e, he, rfl⟩)
    · rw [absRemove, if_neg hek, List.filter_cons_of_pos (by simp [hek]), ih hnd.2]

theorem keys_absRemove_sublist (k : K) (l : List (K × V × Nat)) :
    ((absRemove k l).map Prod.fst).Sublist (l.map Prod.fst) :=
  (absRemove_sublist k l).map Prod.fst

theorem foldl_absRemove_eq_filter {ks : List K} :
    ∀ {l : List (K × V × Nat)}, (l.map Prod.fst).Nodup →
    ks.foldl (fun acc k' => absRemove k' acc) l =
      l.filter (fun e => decide (e.1 ∉ ks)) := by
  induction ks with
  | nil =>
    intro l _
    simp
  | cons k' ks ih =>
    intro l hnd
    rw [List.foldl_cons, ih ((keys_absRemove_sublist k' l).nodup hnd),
      absRemove_eq_filter hnd, List.filter_filter]
    refine List.filter_congr fun e _ => ?_
    simp only [List.mem_cons, decide_not]
    by_cases h1 : e.1 = k' <;> by_cases h2 : e.1 ∈ ks <;> simp [h1, h2]

/-- The record of a key found in the Index: its abstract entry and the
fields of its node. -/
theorem lookup_entry {s : LRUCacheWithTTL K V} {ids : List Nat}
    {l : List (K × V × Nat)} {k : K} {nid : Nat}
    (h : ReprOK s ids l) (hk : dictLookup s.cache k = some nid) :
    ∃ v e, absLookup k l = some (v, e) ∧ keyOf s nid = some k ∧
      valOf s nid = some v ∧ expOf s nid = some e := by
  have hlk : lookupIdx ids l k = some nid := (h.cache_lookup k).symm.trans hk
  obtain ⟨ids₁, ids₂, l₁, l₂, v, e, hids, hl, hlen1, hknotin⟩ := lookupIdx_split hlk
  subst hids
  subst hl
  obtain ⟨-, hemid, -⟩ := forallTwo_split h.entries hlen1
  exact ⟨v, e, absLookup_split hknotin, hemid.1, hemid.2.1, hemid.2.2⟩

/-- Membership in the `expired_keys` scan: exactly the keys whose record
has `expire_time ≤ now`. -/
theorem expired_keys_mem {s : LRUCacheWithTTL K V} {ids : List Nat}
    {l : List (K × V × Nat)} {now : Nat} {k' : K}
    (h : ReprOK s ids l) :
    k' ∈ expired_keys s now ↔ ∃ v e, absLookup k' l = some (v, e) ∧ e ≤ now := by
  rw [expired_keys]
  constructor
  · intro hm
    obtain ⟨⟨k'', nid⟩, hmf, rfl⟩ := List.mem_map.1 hm
    rw [List.mem_filter] at hmf
    obtain ⟨hmem, hp⟩ := hmf
    have hdl : dictLookup s.cache k'' = some nid :=
      dictMem_lookup h.cache_keys_nodup hmem
    obtain ⟨v, e, habs, -, -, hexp⟩ := lookup_entry h hdl
    obtain ⟨nd, hnd, hnde⟩ := Option.map_eq_some'.1 hexp
    refine ⟨v, e, habs, ?_⟩
    rw [hnd] at hp
    simp only [Option.any_some, _is_expired, decide_eq_true_eq] at hp
    rw [← hnde]
    exact hp
  · rintro ⟨v, e, habs, hle⟩
    have hkm : k' ∈ l.map Prod.fst := by
      by_contra hn
      rw [absLookup_eq_none.2 hn] at habs
      exact Option.noConfusion habs
    obtain ⟨nid, hnid⟩ : ∃ nid, dictLookup s.cache k' = some nid := by
      rcases hl : dictLookup s.cache k' with _ | nid
      · rw [h.cache_lookup k', lookupIdx_eq_none h.length_eq] at hl
        exact absurd hkm hl
      · exact ⟨nid, rfl⟩
    obtain ⟨v', e', habs', -, -, hexp⟩ := lookup_entry h hnid
    rw [habs] at habs'
    injection habs' with hh
    have hee : e = e' := congrArg Prod.snd hh
    obtain ⟨nd, hnd, hnde⟩ := Option.map_eq_some'.1 hexp
    refine List.mem_map.2 ⟨(k', nid), List.mem_filter.2 ⟨dictLookup_mem hnid, ?_⟩, rfl⟩
    rw [hnd]
    simp only [Option.any_some, _is_expired, decide_eq_true_eq]
    rw [hnde, ← hee]
    exact hle

theorem expired_keys_nodup {s : LRUCacheWithTTL K V} {ids : List Nat}
    {l : List (K × V × Nat)} (h : ReprOK s ids l) (now : Nat) :
    (expired_keys s now).Nodup := by
  rw [expired_keys]
  exact ((List.filter_sublist s.cache).map Prod.fst).nodup h.cache_keys_nodup

/-- The loop of `_cleanup_expired` over any duplicate-free list of
present keys removes exactly those records. -/
theorem cleanup_fold {ks : List K} :
    ∀ {s : LRUCacheWithTTL K V} {ids : List Nat} {l : List (K × V × Nat)},
    ReprOK s ids l → ks.Nodup → (∀ k' ∈ ks, k' ∈ l.map Prod.fst) →
    ∃ s' ids',
      ks.foldlM cleanupStep s = .ok s' ∧
      s'.capacity = s.capacity ∧ s'.nodes.length = s.nodes.length ∧
      (∀ i, keyOf s' i = keyOf s i) ∧ (∀ i, valOf s' i = valOf s i) ∧
      (∀ i, expOf s' i = expOf s i) ∧
      ReprOK s' ids' (ks.foldl (fun acc k' => absRemove k' acc) l) := by
  induction ks with
  | nil =>
    intro s ids l h _ _
    exact ⟨s, ids, rfl, rfl, rfl, fun _ => rfl, fun _ => rfl, fun _ => rfl, h⟩
  | cons k' ks ih =>
    intro s ids l h hnd hmem
    rw [List.nodup_cons] at hnd
    obtain ⟨nid, hnid⟩ : ∃ nid, dictLookup s.cache k' = some nid := by
      rcases hl : dictLookup s.cache k' with _ | nid
      · rw [h.cache_lookup k', lookupIdx_eq_none h.length_eq] at hl
        exact absurd (hmem k' (by simp)) hl
      · exact ⟨nid, rfl⟩
    obtain ⟨s₁, ids₁, hrun, hcache, hcap, hlen, hkey₁, hval₁, hexp₁, hrepr⟩ :=
      remove_sim h hnid
    have hstep : cleanupStep s k' = .ok { s₁ with cache := dictDelete s₁.cache k' } := by
      simp only [cleanupStep, hnid, hrun]
    obtain ⟨s', ids', hrun', hcap', hlen', hkey', hval', hexp', hrepr'⟩ :=
      ih hrepr hnd.2 (fun u hu => mem_keys_absRemove
        (fun hh => hnd.1 (hh ▸ hu)) (hmem u (by simp [hu])))
    refine ⟨s', ids', ?_, ?_, ?_, ?_, ?_, ?_, by rw [List.foldl_cons]; exact hrepr'⟩
    · rw [List.foldlM_cons, hstep]
      exact hrun'
    · rw [hcap']
      exact hcap
    · rw [hlen']
      exact hlen
    · intro i
      rw [hkey' i, withCache_keyOf, hkey₁ i]
    · intro i
      rw [hval' i, withCache_valOf, hval₁ i]
    · intro i
      rw [hexp' i, withCache_expOf, hexp₁ i]

/-- `_cleanup_expired` succeeds on a well-represented state and removes
exactly the records whose `expire_time` has passed (the sweep). -/
theorem cleanup_sim {s : LRUCacheWithTTL K V} {ids : List Nat}
    {l : List (K × V × Nat)} (h : ReprOK s ids l) (now : Nat) :
    ∃ s' ids', _cleanup_expired s now = .ok s' ∧
      s'.capacity = s.capacity ∧ s'.nodes.length = s.nodes.length ∧
      (∀ i, keyOf s' i = keyOf s i) ∧ (∀ i, valOf s' i = valOf s i) ∧
      (∀ i, expOf s' i = expOf s i) ∧
      ReprOK s' ids' (sweepList now l) := by
  obtain ⟨s', ids', hrun, hcap, hlen, hkey, hval, hexp, hrepr⟩ :=
    cleanup_fold h (expired_keys_nodup h now)
      (fun k' hk' => by
        obtain ⟨v, e, habs, -⟩ := (expired_keys_mem h).1 hk'
        by_contra hn
        rw [absLookup_eq_none.2 hn] at habs
        exact Option.noConfusion habs)
  refine ⟨s', ids', hrun, hcap, hlen, hkey, hval, hexp, ?_⟩
  have heq : (expired_keys s now).foldl (fun acc k' => absRemove k' acc) l =
      sweepList now l := by
    rw [foldl_absRemove_eq_filter h.lkeys_nodup, sweepList]
    refine List.filter_congr fun e he => ?_
    have habs : absLookup e.1 l = some (e.2.1, e.2.2) := by
      refine mem_absLookup h.lkeys_nodup ?_
      simpa using he
    rw [decide_eq_decide]
    constructor
    · intro hnotin
      by_contra hnl
      push_neg at hnl
      exact hnotin ((expired_keys_mem h).2 ⟨e.2.1, e.2.2, habs, hnl⟩)
    · intro hlt hmem
      obtain ⟨v', e', habs', hle⟩ := (expired_keys_mem h).1 hmem
      rw [habs] at habs'
      have he' : e' = e.2.2 := by
        injection habs' with hh
        exact (congrArg Prod.snd hh).symm
      omega
  rw [heq] at hrepr
  exact hrepr

theorem getLastD_mem_of_ne_nil {α : Type _} {l : List α} (hne : l ≠ []) (d : α) :
    l.getLastD d ∈ l := by
  rcases List.eq_nil_or_concat l with rfl | ⟨zs, x, rfl⟩
  · exact absurd rfl hne
  · simp only [List.concat_eq_append, List.getLastD_concat]
    simp

theorem absRemove_length {l : List (K × V × Nat)} {k : K} {v : V} {e : Nat}
    (h : absLookup k l = some (v, e)) : (absRemove k l).length + 1 = l.length := by
  induction l with
  | nil => simp [absLookup] at h
  | cons ent es ih =>
    by_cases hek : ent.1 = k
    · rw [absRemove, if_pos hek]
      simp
    · rw [absLookup_cons, if_neg hek] at h
      rw [absRemove, if_neg hek]
      simp only [List.length_cons]
      rw [← ih h]

/-- A node whose key is not among the live keys is not a live node. -/
theorem notin_ids_of_key_notin {s : LRUCacheWithTTL K V} {ids : List Nat}
    {l : List (K × V × Nat)} {nid : Nat} {k : K}
    (h : ReprOK s ids l) (hkey : keyOf s nid = some k)
    (hk : k ∉ l.map Prod.fst) : nid ∉ ids := by
  intro hm
  obtain ⟨e, hel, hr⟩ := forallTwo_mem_left h.entries nid hm
  have h1 := hr.1
  rw [hkey] at h1
  injection h1 with h2
  exact hk (h2 ▸ List.mem_map.2 ⟨e, hel, rfl⟩)

/-- Allocating the fresh node of a new key leaves the representation of
the live records untouched. -/
theorem alloc_repr {s : LRUCacheWithTTL K V} {ids : List Nat}
    {l : List (K × V × Nat)} (h : ReprOK s ids l) (k : K) (v : V) (e : Nat) :
    ReprOK ({ s with nodes := s.nodes ++
        [{ key := some k, value := some v, expire_time := e,
           prev := none, next := none }] }) ids l := by
  obtain ⟨hcache, hcap, hlen, hnext, hprev, hkey, hval, hexp⟩ := alloc_spec s k v e
  have h0lt : (0 : Nat) < s.nodes.length := Nat.lt_of_lt_of_le (by norm_num) h.two_le
  have h1lt : (1 : Nat) < s.nodes.length := Nat.lt_of_lt_of_le (by norm_num) h.two_le
  refine ⟨h.ids_nodup, h.head_notin, h.tail_notin, ?_, ?_, ?_, ?_, ?_, ?_, ?_,
    h.cache_keys_nodup, h.lkeys_nodup, ?_, h.cache_len⟩
  · rw [hlen]
    exact Nat.le_trans h.two_le (Nat.le_succ _)
  · rw [hprev 0]
    exact h.head_prev
  · rw [hkey 0, if_neg (Nat.ne_of_lt h0lt)]
    exact h.head_key
  · rw [hnext 1]
    exact h.tail_next
  · rw [hkey 1, if_neg (Nat.ne_of_lt h1lt)]
    exact h.tail_key
  · exact chainOk_frame (fun i _ => hnext i) (fun i _ => hprev i) h.chain
  · refine entries_congr_mem h.entries (fun i hi => ?_) (fun i hi => ?_)
      (fun i hi => ?_)
    · rw [hkey i, if_neg (Nat.ne_of_lt (h.ids_lt i hi))]
    · rw [hval i, if_neg (Nat.ne_of_lt (h.ids_lt i hi))]
    · rw [hexp i, if_neg (Nat.ne_of_lt (h.ids_lt i hi))]
  · exact h.cache_lookup

/-- `_remove_tail` on a cache holding at least one live record detaches
the node before the tail sentinel — a real node, never a sentinel — whose
key is the last (LRU) key and is present in the Index; deleting that key
afterwards leaves a representation of `l.dropLast`. -/
theorem remove_tail_sim {s : LRUCacheWithTTL K V} {ids : List Nat}
    {l : List (K × V × Nat)} (h : ReprOK s ids l) (hne : l ≠ []) :
    ∃ lruId s₁ lk ids',
      _remove_tail s = .ok (lruId, s₁) ∧
      lruId ≠ 0 ∧ lruId ≠ 1 ∧
      keyOf s₁ lruId = some lk ∧
      dictLookup s₁.cache lk = some lruId ∧
      s₁.cache = s.cache ∧ s₁.capacity = s.capacity ∧
      s₁.nodes.length = s.nodes.length ∧
      (∀ i, keyOf s₁ i = keyOf s i) ∧ (∀ i, valOf s₁ i = valOf s i) ∧
      (∀ i, expOf s₁ i = expOf s i) ∧
      ReprOK { s₁ with cache := dictDelete s₁.cache lk } ids' l.dropLast := by
  have hidsne : ids ≠ [] := by
    intro hh
    rw [hh] at h
    have hle := h.length_eq
    simp only [List.length_nil] at hle
    exact hne (List.length_eq_zero.1 hle.symm)
  obtain ⟨ids₀, lru, hids⟩ : ∃ ids₀ lru, ids = ids₀ ++ [lru] := by
    rcases List.eq_nil_or_concat ids with hh | ⟨zs, x, hh⟩
    · exact absurd hh hidsne
    · exact ⟨zs, x, by simpa [List.concat_eq_append] using hh⟩
  obtain ⟨l₀, ent, hl⟩ : ∃ l₀ ent, l = l₀ ++ [ent] := by
    rcases List.eq_nil_or_concat l with hh | ⟨zs, x, hh⟩
    · exact absurd hh hne
    · exact ⟨zs, x, by simpa [List.concat_eq_append] using hh⟩
  obtain ⟨ek, ev, ee⟩ := ent
  have hlen0 : ids₀.length = l₀.length := by
    have hle := h.length_eq
    rw [hids, hl] at hle
    simp at hle
    omega
  have hemid : entryMatches s lru (ek, ev, ee) := by
    have he := h.entries
    rw [hids, hl] at he
    exact (forallTwo_split he hlen0).2.1
  have hlknotin : ek ∉ l₀.map Prod.fst := by
    have hnd := h.lkeys_nodup
    rw [hl, List.map_append, List.nodup_append] at hnd
    intro hm
    exact hnd.2.2 hm (by simp)
  have hdl : dictLookup s.cache ek = some lru := by
    rw [h.cache_lookup, hids, hl, lookupIdx_append hlen0,
      lookupIdx_eq_none hlen0 |>.2 hlknotin]
    simp [lookupIdx_cons, Option.or]
  -- run `_remove_tail`
  have h1lt : (1 : Nat) < s.nodes.length := Nat.lt_of_lt_of_le (by norm_num) h.two_le
  obtain ⟨t, ht⟩ := exists_getElem? h1lt
  have hprev1 : prevOf s 1 = some (ids.getLastD 0) := chainOk_prevOf h.chain
  have hlastid : ids.getLastD 0 = lru := by
    rw [hids, List.getLastD_concat]
  have htprev : t.prev = some lru := by
    rw [prevOf, ht] at hprev1
    rw [← hlastid]
    exact hprev1
  obtain ⟨s₁, ids', hrun, hcache, hcap, hlen, hkey, hval, hexp, hrepr⟩ :=
    remove_sim h hdl
  have hlru0 : lru ≠ 0 := fun hh => h.head_notin (hh ▸ (by rw [hids]; simp))
  have hlru1 : lru ≠ 1 := fun hh => h.tail_notin (hh ▸ (by rw [hids]; simp))
  have habs : absRemove ek l = l.dropLast := by
    rw [hl, absRemove_split hlknotin]
    simp
  refine ⟨lru, s₁, ek, ids', ?_, hlru0, hlru1, ?_, ?_, hcache, hcap, hlen,
    hkey, hval, hexp, ?_⟩
  · simp only [_remove_tail, ht, htprev, hrun]
  · rw [hkey lru]
    exact hemid.1
  · rw [hcache]
    exact hdl
  · rw [← habs]
    exact hrepr

/-- `get` on an absent key: `None`, and the state is returned untouched. -/
theorem get_miss {s : LRUCacheWithTTL K V} {k : K} (now : Nat)
    (hk : dictLookup s.cache k = none) : get s now k = .ok (none, s) := by
  simp only [get, hk]

/-- `get` on a present but expired key: the record is removed from the
Index and the Ledger (lazy deletion) and `None` is returned; no other
record is touched (the survivors are exactly `absRemove k l`). -/
theorem get_expired_sim {s : LRUCacheWithTTL K V} {ids : List Nat}
    {l : List (K × V × Nat)} {k : K} {nid : Nat} {now : Nat} {v : V} {e : Nat}
    (h : ReprOK s ids l) (hk : dictLookup s.cache k = some nid)
    (hv : absLookup k l = some (v, e)) (he : e ≤ now) :
    ∃ s' ids', get s now k = .ok (none, s') ∧ s'.cache = dictDelete s.cache k ∧
      s'.capacity = s.capacity ∧ s'.nodes.length = s.nodes.length ∧
      (∀ i, keyOf s' i = keyOf s i) ∧ (∀ i, valOf s' i = valOf s i) ∧
      (∀ i, expOf s' i = expOf s i) ∧
      ReprOK s' ids' (absRemove k l) := by
  obtain ⟨v', e', habs', hkeyn, hvaln, hexpn⟩ := lookup_entry h hk
  rw [hv] at habs'
  injection habs' with hve
  have hee : e = e' := congrArg Prod.snd hve
  obtain ⟨n, hn, hnde⟩ := Option.map_eq_some'.1 hexpn
  have hexpired : _is_expired now n = true := by
    rw [_is_expired, hnde, ← hee]
    simp [he]
  obtain ⟨s₁, ids₁, hrun, hcache, hcap, hlen, hkey, hval, hexp, hrepr⟩ :=
    remove_sim h hk
  refine ⟨{ s₁ with cache := dictDelete s₁.cache k }, ids₁, ?_, ?_, hcap, hlen,
    fun i => hkey i, fun i => hval i, fun i => hexp i, hrepr⟩
  · simp only [get, hk, hn, hexpired, if_true, hrun]
  · rw [withCache_nodes] at *
    show dictDelete s₁.cache k = dictDelete s.cache k
    rw [hcache]

/-- `get` on a live (unexpired) key: the value is returned and the record
moves to the MRU position; nothing else changes. -/
theorem get_hit_sim {s : LRUCacheWithTTL K V} {ids : List Nat}
    {l : List (K × V × Nat)} {k : K} {nid : Nat} {now : Nat} {v : V} {e : Nat}
    (h : ReprOK s ids l) (hk : dictLookup s.cache k = some nid)
    (hv : absLookup k l = some (v, e)) (he : now < e) :
    ∃ s' ids', get s now k = .ok (some v, s') ∧ s'.cache = s.cache ∧
      s'.capacity = s.capacity ∧ s'.nodes.length = s.nodes.length ∧
      ReprOK s' ids' ((k, v, e) :: absRemove k l) := by
  obtain ⟨v', e', habs', hkeyn, hvaln, hexpn⟩ := lookup_entry h hk
  rw [hv] at habs'
  injection habs' with hve
  have hee : e = e' := congrArg Prod.snd hve
  have hvv : v = v' := congrArg Prod.fst hve
  obtain ⟨n, hn, hnde⟩ := Option.map_eq_some'.1 hexpn
  have hlive : _is_expired now n = false := by
    rw [_is_expired, hnde, ← hee]
    simp
    omega
  obtain ⟨s', ids', v'', e'', habs'', hrunM, hcacheM, hcapM, hlenM, hkeyM, hvalM,
    hexpM, hrepr⟩ := move_to_head_sim h hk
  rw [hv] at habs''
  injection habs'' with hve2
  have hvv2 : v = v'' := congrArg Prod.fst hve2
  have hee2 : e = e'' := congrArg Prod.snd hve2
  have hvaln' : valOf s' nid = some v := by
    rw [hvalM nid, hvaln, hvv]
  obtain ⟨n₁, hn₁, hn₁v⟩ := Option.bind_eq_some.1 hvaln'
  refine ⟨s', ids', ?_, hcacheM, hcapM, hlenM, ?_⟩
  · simp only [get, hk, hn, hlive, Bool.false_eq_true, if_false, hrunM, hn₁, hn₁v]
  · rw [hvv2, hee2]
    exact hrepr

/-- The update branch of `put` (`key in self.cache`): value and expiry
are overwritten in place and the record moves to MRU; the Index dict is
untouched, no record is removed, and every other record is unchanged. -/
theorem put_update_sim {s : LRUCacheWithTTL K V} {ids : List Nat}
    {l : List (K × V × Nat)} {k : K} {nid : Nat} {now : Nat} {v : V} {ttl : Int}
    (h : ReprOK s ids l) (hk : dictLookup s.cache k = some nid) (httl : 0 < ttl) :
    ∃ s' ids', put s now k v ttl = .ok s' ∧ s'.cache = s.cache ∧
      s'.capacity = s.capacity ∧ s'.nodes.length = s.nodes.length ∧
      ReprOK s' ids' ((k, v, now + ttl.toNat) :: absRemove k l) := by
  have httl' : ¬ ttl ≤ 0 := not_le.2 httl
  obtain ⟨v₀, e₀, habs₀, hkeyn, -, -⟩ := lookup_entry h hk
  obtain ⟨n, hn, -⟩ := Option.bind_eq_some.1 hkeyn
  obtain ⟨l₁, l₂, v₀', e₀', hl, hknotin, hreprU⟩ :=
    update_entry_sim h hk hn v (now + ttl.toNat)
  have hkU : dictLookup
      (setNode s nid
        { n with value := some v, expire_time := now + ttl.toNat }).cache k =
      some nid := hk
  obtain ⟨s', ids', v', e', habs', hrunM, hcacheM, hcapM, hlenM, -, -, -, hrepr'⟩ :=
    move_to_head_sim hreprU hkU
  have habsU : absLookup k (l₁ ++ (k, v, now + ttl.toNat) :: l₂) =
      some (v, now + ttl.toNat) := absLookup_split hknotin
  rw [habsU] at habs'
  injection habs' with hve
  have hv' : v = v' := congrArg Prod.fst hve
  have he' : now + ttl.toNat = e' := congrArg Prod.snd hve
  have habsRem : absRemove k (l₁ ++ (k, v, now + ttl.toNat) :: l₂) = l₁ ++ l₂ :=
    absRemove_split hknotin
  have habsReml : absRemove k l = l₁ ++ l₂ := by
    rw [hl]
    exact absRemove_split hknotin
  refine ⟨s', ids', ?_, hcacheM, hcapM, hlenM.trans (by simp [setNode]), ?_⟩
  · simp only [put, if_neg httl', hk, hn]
    exact hrunM
  · rw [← hv', ← he', habsRem] at hrepr'
    rw [habsReml]
    exact hrepr'

/-- The new-key branch of `put` with spare capacity: no sweep runs, no
record is removed, the new record is inserted at the MRU position, and
`size()` grows by exactly one. -/
theorem put_insert_sim {s : LRUCacheWithTTL K V} {ids : List Nat}
    {l : List (K × V × Nat)} {k : K} {now : Nat} {v : V} {ttl : Int}
    (h : ReprOK s ids l) (hk : dictLookup s.cache k = none)
    (hcap : s.cache.length < s.capacity) (httl : 0 < ttl) :
    ∃ s', put s now k v ttl = .ok s' ∧
      s'.capacity = s.capacity ∧ s'.cache = s.cache ++ [(k, s.nodes.length)] ∧
      s'.nodes.length = s.nodes.length + 1 ∧
      ReprOK s' (s.nodes.length :: ids) ((k, v, now + ttl.toNat) :: l) := by
  have httl' : ¬ ttl ≤ 0 := not_le.2 httl
  have hreprA : ReprOK ({ s with nodes := s.nodes ++
      [{ key := some k, value := some v, expire_time := now + ttl.toNat,
         prev := none, next := none }] }) ids l := alloc_repr h k v (now + ttl.toNat)
  obtain ⟨-, -, hlenA, -, -, hkeyA, hvalA, hexpA⟩ := alloc_spec s k v (now + ttl.toNat)
  have h2 : 2 ≤ s.nodes.length := h.two_le
  have hkeyA' : keyOf ({ s with nodes := s.nodes ++
      [{ key := some k, value := some v, expire_time := now + ttl.toNat,
         prev := none, next := none }] }) s.nodes.length = some k := by
    rw [hkeyA]
    simp
  have hvalA' : valOf ({ s with nodes := s.nodes ++
      [{ key := some k, value := some v, expire_time := now + ttl.toNat,
         prev := none, next := none }] }) s.nodes.length = some v := by
    rw [hvalA]
    simp
  have hexpA' : expOf ({ s with nodes := s.nodes ++
      [{ key := some k, value := some v, expire_time := now + ttl.toNat,
         prev := none, next := none }] }) s.nodes.length =
      some (now + ttl.toNat) := by
    rw [hexpA]
    simp
  obtain ⟨s', hrun, hcap', hcache', hlen', hrepr'⟩ :=
    insert_sim hreprA hk hkeyA' hvalA' hexpA'
      (fun hm => Nat.lt_irrefl _ (h.ids_lt _ hm))
      (by omega) (by omega)
  refine ⟨s', ?_, hcap', hcache', by rw [hlen', hlenA], hrepr'⟩
  simp only [put, if_neg httl', hk, if_neg (not_le.2 hcap)]
  exact hrun

/-- The new-key branch of `put` at (or above) capacity: first the sweep
removes every expired record; only if that did not get below capacity is
exactly one further record destroyed — the LRU one (the node before the
tail sentinel); then the new record is inserted at MRU. -/
theorem put_full_sim {s : LRUCacheWithTTL K V} {ids : List Nat}
    {l : List (K × V × Nat)} {k : K} {now : Nat} {v : V} {ttl : Int}
    (h : ReprOK s ids l) (hk : dictLookup s.cache k = none)
    (hcap : s.capacity ≤ s.cache.length) (hcappos : 1 ≤ s.capacity)
    (httl : 0 < ttl) :
    ∃ s' ids', put s now k v ttl = .ok s' ∧ s'.capacity = s.capacity ∧
      s'.nodes.length = s.nodes.length + 1 ∧
      ReprOK s' ids' ((k, v, now + ttl.toNat) :: evictResult now s.capacity l) := by
  have httl' : ¬ ttl ≤ 0 := not_le.2 httl
  have hklnotin : k ∉ l.map Prod.fst := by
    rw [← lookupIdx_eq_none h.length_eq, ← h.cache_lookup]
    exact hk
  have hreprA : ReprOK ({ s with nodes := s.nodes ++
      [{ key := some k, value := some v, expire_time := now + ttl.toNat,
         prev := none, next := none }] }) ids l := alloc_repr h k v (now + ttl.toNat)
  obtain ⟨-, -, hlenA, -, -, hkeyA, hvalA, hexpA⟩ := alloc_spec s k v (now + ttl.toNat)
  have h2 : 2 ≤ s.nodes.length := h.two_le
  obtain ⟨s₁, ids₁, hrun1, hcap1, hlen1, hkey1, hval1, hexp1, hrepr1⟩ :=
    cleanup_sim hreprA now
  have hcap1' : s₁.capacity = s.capacity := hcap1
  have hlen1' : s₁.nodes.length = s.nodes.length + 1 := by
    rw [hlen1, hlenA]
  have hkey1' : keyOf s₁ s.nodes.length = some k := by
    rw [hkey1, hkeyA]
    simp
  have hval1' : valOf s₁ s.nodes.length = some v := by
    rw [hval1, hvalA]
    simp
  have hexp1' : expOf s₁ s.nodes.length = some (now + ttl.toNat) := by
    rw [hexp1, hexpA]
    simp
  have hsweepsub : ((sweepList now l).map Prod.fst).Sublist (l.map Prod.fst) :=
    (List.filter_sublist l).map Prod.fst
  have hksweep : k ∉ (sweepList now l).map Prod.fst :=
    fun hm => hklnotin (hsweepsub.subset hm)
  by_cases hfull : s.capacity ≤ (sweepList now l).length
  · -- eviction happens
    have hcond2 : s₁.capacity ≤ s₁.cache.length := by
      rw [hcap1', hrepr1.cache_len]
      exact hfull
    have hne : sweepList now l ≠ [] := by
      have : 0 < (sweepList now l).length := Nat.lt_of_lt_of_le hcappos hfull
      exact List.length_pos.1 this
    obtain ⟨lru, s₂, lk, ids₂, hrun2, hlru0, hlru1, hkeyLru, hdl2, hcache2, hcap2,
      hlen2, hkey2, hval2, hexp2, hrepr2⟩ := remove_tail_sim hrepr1 hne
    obtain ⟨lruN, hlruN, hlruNkey⟩ := Option.bind_eq_some.1 hkeyLru
    have hdropsub : (((sweepList now l).dropLast).map Prod.fst).Sublist
        ((sweepList now l).map Prod.fst) :=
      (List.dropLast_sublist _).map Prod.fst
    have hkdrop : k ∉ ((sweepList now l).dropLast).map Prod.fst :=
      fun hm => hksweep (hdropsub.subset hm)
    have hfreshB : dictLookup ({ s₂ with cache := dictDelete s₂.cache lk } :
        LRUCacheWithTTL K V).cache k = none := by
      rw [hrepr2.cache_lookup, lookupIdx_eq_none hrepr2.length_eq]
      exact hkdrop
    have hkeyB : keyOf ({ s₂ with cache := dictDelete s₂.cache lk } :
        LRUCacheWithTTL K V) s.nodes.length = some k := by
      rw [withCache_keyOf, hkey2, hkey1']
    have hvalB : valOf ({ s₂ with cache := dictDelete s₂.cache lk } :
        LRUCacheWithTTL K V) s.nodes.length = some v := by
      rw [withCache_valOf, hval2, hval1']
    have hexpB : expOf ({ s₂ with cache := dictDelete s₂.cache lk } :
        LRUCacheWithTTL K V) s.nodes.length = some (now + ttl.toNat) := by
      rw [withCache_expOf, hexp2, hexp1']
    have hnidni : s.nodes.length ∉ ids₂ :=
      notin_ids_of_key_notin hrepr2 hkeyB hkdrop
    obtain ⟨s₃, hrun3, hcap3, hcache3, hlen3, hrepr3⟩ :=
      insert_sim hrepr2 hfreshB hkeyB hvalB hexpB hnidni (by omega) (by omega)
    refine ⟨s₃, s.nodes.length :: ids₂, ?_, ?_, ?_, ?_⟩
    · simp only [put, if_neg httl', hk, if_pos hcap, hrun1, if_pos hcond2, hrun2,
        hlruN, hlruNkey, hdl2, Option.isSome_some, if_true]
      exact hrun3
    · exact hcap3.trans (hcap2.trans hcap1')
    · have hlen3' : s₃.nodes.length = s₂.nodes.length := hlen3
      rw [hlen3', hlen2, hlen1']
    · rw [evictResult]
      simp only [if_pos hfull]
      exact hrepr3
  · -- the sweep freed enough space
    have hcond2 : ¬ (s₁.capacity ≤ s₁.cache.length) := by
      rw [hcap1', hrepr1.cache_len]
      exact hfull
    have hfresh1 : dictLookup s₁.cache k = none := by
      rw [hrepr1.cache_lookup, lookupIdx_eq_none hrepr1.length_eq]
      exact hksweep
    have hnidni : s.nodes.length ∉ ids₁ :=
      notin_ids_of_key_notin hrepr1 hkey1' hksweep
    obtain ⟨s₃, hrun3, hcap3, hcache3, hlen3, hrepr3⟩ :=
      insert_sim hrepr1 hfresh1 hkey1' hval1' hexp1' hnidni (by omega) (by omega)
    refine ⟨s₃, s.nodes.length :: ids₁, ?_, ?_, ?_, ?_⟩
    · simp only [put, if_neg httl', hk, if_pos hcap, hrun1, if_neg hcond2]
      exact hrun3
    · rw [hcap3]
      exact hcap1'
    · rw [hlen3, hlen1']
    · rw [evictResult]
      simp only [if_neg hfull]
      exact hrepr3

/-- A successful construction yields the empty representation. -/
theorem init_ok {cap : Int} (hcap : 0 < cap) :
    ∃ s : LRUCacheWithTTL K V, init cap = .ok s ∧ s.capacity = cap.toNat ∧
      ReprOK s [] [] := by
  refine ⟨_, by rw [init, if_neg (not_le.2 hcap)], rfl, ?_⟩
  refine ⟨by simp, by simp, by simp, by norm_num, rfl, rfl, rfl, rfl, ⟨rfl, rfl⟩,
    List.Forall₂.nil, by simp, by simp, fun k => rfl, rfl⟩

theorem set_getElem?_self {α : Type _} {l : List α} {i : Nat} {a : α}
    (h : l[i]? = some a) : l.set i a = l := by
  apply List.ext_getElem?
  intro j
  by_cases hij : i = j
  · rw [← hij, List.getElem?_set_eq (lt_of_getElem?_eq_some h), h]
  · rw [List.getElem?_set_ne hij]

theorem state_ext {a b : LRUCacheWithTTL K V} (h1 : a.capacity = b.capacity)
    (h2 : a.cache = b.cache) (h3 : a.nodes = b.nodes) : a = b := by
  cases a
  cases b
  simp only at h1 h2 h3
  rw [h1, h2, h3]

/-- `clear()`: the Index empties and the two sentinels point directly at
each other; capacity and the arena size are unchanged. -/
theorem clear_sim {s : LRUCacheWithTTL K V} {ids : List Nat}
    {l : List (K × V × Nat)} (h : ReprOK s ids l) :
    ReprOK (clear s) [] [] ∧ (clear s).capacity = s.capacity ∧
    (clear s).cache = [] ∧ (clear s).nodes.length = s.nodes.length ∧
    nextOf (clear s) 0 = some 1 ∧ prevOf (clear s) 1 = some 0 ∧
    clear (clear s) = clear s := by
  have h0lt : (0 : Nat) < s.nodes.length := Nat.lt_of_lt_of_le (by norm_num) h.two_le
  have h1lt : (1 : Nat) < s.nodes.length := Nat.lt_of_lt_of_le (by norm_num) h.two_le
  obtain ⟨h0, hh0⟩ := exists_getElem? h0lt
  obtain ⟨t0, ht0⟩ := exists_getElem? h1lt
  have hh0' : ({ s with cache := ([] : List (K × Nat)) } :
      LRUCacheWithTTL K V).nodes[0]? = some h0 := hh0
  have ht1 : (setNode { s with cache := ([] : List (K × Nat)) } 0
      { h0 with next := some 1 }).nodes[1]? = some t0 := by
    show (s.nodes.set 0 { h0 with next := some 1 })[1]? = some t0
    rw [List.getElem?_set_ne (by norm_num), ht0]
  have hclear : clear s = setNode (setNode { s with cache := ([] : List (K × Nat)) } 0
      { h0 with next := some 1 }) 1 { t0 with prev := some 0 } := by
    rw [clear]
    simp only [hh0', ht1]
  have hnodes : ∀ i, (clear s).nodes[i]? =
      if i = 1 then some { t0 with prev := some 0 }
      else if i = 0 then some { h0 with next := some 1 }
      else s.nodes[i]? := by
    intro i
    rw [hclear]
    show ((s.nodes.set 0 _).set 1 _)[i]? = _
    by_cases hi1 : i = 1
    · rw [hi1, if_pos rfl]
      exact List.getElem?_set_eq (by simp [h1lt])
    · rw [if_neg hi1]
      by_cases hi0 : i = 0
      · rw [hi0, if_pos rfl, List.getElem?_set_ne (by norm_num)]
        exact List.getElem?_set_eq h0lt
      · rw [if_neg hi0, List.getElem?_set_ne (fun hh : (1 : Nat) = i => hi1 hh.symm),
          List.getElem?_set_ne (fun hh : (0 : Nat) = i => hi0 hh.symm)]
  have hcache : (clear s).cache = [] := by
    rw [hclear]
    rfl
  have hcap : (clear s).capacity = s.capacity := by
    rw [hclear]
    rfl
  have hlen : (clear s).nodes.length = s.nodes.length := by
    rw [hclear]
    show ((s.nodes.set 0 _).set 1 _).length = s.nodes.length
    simp
  have hnext0 : nextOf (clear s) 0 = some 1 := by
    rw [nextOf, hnodes 0, if_neg (by norm_num), if_pos rfl]
    rfl
  have hprev1 : prevOf (clear s) 1 = some 0 := by
    rw [prevOf, hnodes 1, if_pos rfl]
    rfl
  have hh0prev : h0.prev = none := by
    have hp := h.head_prev
    rw [prevOf, hh0] at hp
    exact hp
  have hh0key : h0.key = none := by
    have hp := h.head_key
    rw [keyOf, hh0] at hp
    exact hp
  have ht0next : t0.next = none := by
    have hp := h.tail_next
    rw [nextOf, ht0] at hp
    exact hp
  have ht0key : t0.key = none := by
    have hp := h.tail_key
    rw [keyOf, ht0] at hp
    exact hp
  have hrepr : ReprOK (clear s) [] [] := by
    refine ⟨by simp, by simp, by simp, by rw [hlen]; exact h.two_le, ?_, ?_, ?_, ?_,
      ⟨hnext0, hprev1⟩, List.Forall₂.nil, by rw [hcache]; simp,
      by simp, fun k => by rw [hcache]; rfl, by rw [hcache]; rfl⟩
    · rw [prevOf, hnodes 0, if_neg (by norm_num), if_pos rfl]
      show h0.prev = none
      exact hh0prev
    · rw [keyOf, hnodes 0, if_neg (by norm_num), if_pos rfl]
      show h0.key = none
      exact hh0key
    · rw [nextOf, hnodes 1, if_pos rfl]
      show t0.next = none
      exact ht0next
    · rw [keyOf, hnodes 1, if_pos rfl]
      show t0.key = none
      exact ht0key
  have hidem : clear (clear s) = clear s := by
    have hc0 : (clear s).nodes[0]? = some { h0 with next := some 1 } := by
      rw [hnodes 0, if_neg (by norm_num), if_pos rfl]
    have hc1' : ((clear s).nodes.set 0 { h0 with next := some 1 })[1]? =
        some { t0 with prev := some 0 } := by
      rw [List.getElem?_set_ne (by norm_num), hnodes 1, if_pos rfl]
    have hc0set : (clear s).nodes.set 0 { h0 with next := some 1 } = (clear s).nodes :=
      set_getElem?_self hc0
    rw [clear]
    have hcc : ({ clear s with cache := ([] : List (K × Nat)) } :
        LRUCacheWithTTL K V) = clear s := state_ext rfl (by rw [hcache]) rfl
    rw [hcc, hc0]
    simp only [setNode, hc0set]
    rw [show ((clear s).nodes)[1]? = some { t0 with prev := some 0 } from by
      rw [hnodes 1, if_pos rfl]]
    refine state_ext rfl rfl ?_
    show (clear s).nodes.set 1 _ = (clear s).nodes
    refine set_getElem?_self ?_
    rw [hnodes 1, if_pos rfl]
  exact ⟨hrepr, hcap, hcache, hlen, hnext0, hprev1, hidem⟩

/-- `put` with a non-positive TTL raises `ValueError` before any
mutation. -/
theorem put_ttl_err (s : LRUCacheWithTTL K V) (now : Nat) (k : K) (v : V)
    {ttl : Int} (httl : ttl ≤ 0) :
    put s now k v ttl = .error (.valueError "TTL must be positive") := by
  rw [put, if_pos httl]

/-- Constructing with a non-positive capacity raises `ValueError` and
yields no cache. -/
theorem init_err {cap : Int} (hcap : cap ≤ 0) :
    (init cap : Except PyError (LRUCacheWithTTL K V)) =
      .error (.valueError "Capacity must be positive") := by
  rw [init, if_pos hcap]

theorem sweepList_length_le (now : Nat) (l : List (K × V × Nat)) :
    (sweepList now l).length ≤ l.length :=
  List.length_filter_le _ l

/-- Every state reachable through the public API is well-formed: its
capacity is positive, it represents an abstract ledger, and that ledger
never holds more records than the capacity. -/
theorem reachable_wf {s : LRUCacheWithTTL K V} (h : Reachable s) : WF s := by
  induction h with
  | init cap s hs =>
    by_cases hc : cap ≤ 0
    · rw [init_err hc] at hs
      exact absurd hs (by simp)
    · have hcpos : 0 < cap := lt_of_not_le hc
      obtain ⟨s₀, hs₀, hcap₀, hrepr₀⟩ := init_ok (K := K) (V := V) hcpos
      rw [hs₀] at hs
      injection hs with hs
      subst hs
      refine ⟨by rw [hcap₀]; omega, [], [], hrepr₀, by rw [hcap₀]; simp⟩
  | get s now k r s' _ hstep ih =>
    obtain ⟨hcap, ids, l, hrepr, hlen⟩ := ih
    rcases hdl : dictLookup s.cache k with _ | nid
    · rw [get_miss now hdl] at hstep
      injection hstep with hstep
      injection hstep with _ hstep
      rw [← hstep]
      exact ⟨hcap, ids, l, hrepr, hlen⟩
    · obtain ⟨v, e, habs, -, -, -⟩ := lookup_entry hrepr hdl
      by_cases hexp : e ≤ now
      · obtain ⟨sE, idsE, hrunE, -, hcapE, -, -, -, -, hreprE⟩ :=
          get_expired_sim hrepr hdl habs hexp
        rw [hrunE] at hstep
        injection hstep with hstep
        injection hstep with _ hstep
        rw [← hstep]
        refine ⟨by rw [hcapE]; exact hcap, idsE, absRemove k l, hreprE, ?_⟩
        rw [hcapE]
        have := absRemove_length habs
        omega
      · obtain ⟨sH, idsH, hrunH, -, hcapH, -, hreprH⟩ :=
          get_hit_sim hrepr hdl habs (lt_of_not_le hexp)
        rw [hrunH] at hstep
        injection hstep with hstep
        injection hstep with _ hstep
        rw [← hstep]
        refine ⟨by rw [hcapH]; exact hcap, idsH, _, hreprH, ?_⟩
        rw [hcapH]
        have := absRemove_length habs
        simp only [List.length_cons]
        omega
  | put s now k v ttl s' _ hstep ih =>
    obtain ⟨hcap, ids, l, hrepr, hlen⟩ := ih
    by_cases httl : ttl ≤ 0
    · rw [put_ttl_err s now k v httl] at hstep
      exact absurd hstep (by simp)
    · have httl' : 0 < ttl := lt_of_not_le httl
      rcases hdl : dictLookup s.cache k with _ | nid
      · by_cases hfull : s.cache.length < s.capacity
        · obtain ⟨sI, hrunI, hcapI, -, -, hreprI⟩ :=
            put_insert_sim hrepr hdl hfull httl'
          rw [hrunI] at hstep
          injection hstep with hstep
          rw [← hstep]
          refine ⟨by rw [hcapI]; exact hcap, _, _, hreprI, ?_⟩
          rw [hcapI]
          have hclen := hrepr.cache_len
          simp only [List.length_cons]
          omega
        · obtain ⟨sF, idsF, hrunF, hcapF, -, hreprF⟩ :=
            put_full_sim hrepr hdl (le_of_not_lt hfull) hcap httl'
          rw [hrunF] at hstep
          injection hstep with hstep
          rw [← hstep]
          refine ⟨by rw [hcapF]; exact hcap, idsF, _, hreprF, ?_⟩
          rw [hcapF]
          have hsw := sweepList_length_le now l
          simp only [List.length_cons]
          rw [evictResult]
          by_cases hful2 : s.capacity ≤ (sweepList now l).length
          · simp only [if_pos hful2]
            have hd : (sweepList now l).dropLast.length =
                (sweepList now l).length - 1 := List.length_dropLast _
            omega
          · simp only [if_neg hful2]
            omega
      · obtain ⟨sU, idsU, hrunU, -, hcapU, -, hreprU⟩ :=
          put_update_sim hrepr hdl httl'
        rw [hrunU] at hstep
        injection hstep with hstep
        rw [← hstep]
        refine ⟨by rw [hcapU]; exact hcap, idsU, _, hreprU, ?_⟩
        rw [hcapU]
        obtain ⟨vx, ex, habs, -, -, -⟩ := lookup_entry hrepr hdl
        have := absRemove_length habs
        simp only [List.length_cons]
        omega
  | clear s _ ih =>
    obtain ⟨hcap, ids, l, hrepr, -⟩ := ih
    obtain ⟨hreprC, hcapC, -, -, -, -, -⟩ := clear_sim hrepr
    exact ⟨by rw [hcapC]; exact hcap, [], [], hreprC, by simp⟩

/-- The shared representation fact for the concrete one-record states. -/
theorem wcap1_repr : ReprOK wcap1 [2] [(0, 7, 5)] := by
  refine ⟨by decide, by decide, by decide, by decide, rfl, rfl, rfl, rfl,
    ⟨rfl, rfl, rfl, rfl⟩, List.Forall₂.cons ⟨rfl, rfl, rfl⟩ List.Forall₂.nil,
    by decide, by decide, fun k => rfl, rfl⟩

theorem wcap2_repr : ReprOK wcap2 [2] [(0, 7, 5)] := by
  refine ⟨by decide, by decide, by decide, by decide, rfl, rfl, rfl, rfl,
    ⟨rfl, rfl, rfl, rfl⟩, List.Forall₂.cons ⟨rfl, rfl, rfl⟩ List.Forall₂.nil,
    by decide, by decide, fun k => rfl, rfl⟩

theorem wcap1_reachable : Reachable wcap1 :=
  Reachable.put winit1 0 0 7 5 wcap1 (Reachable.init 1 winit1 rfl) rfl

/-- `put` never changes the configured capacity. -/
theorem put_capacity_preserved {s s' : LRUCacheWithTTL K V} {now : Nat} {k : K}
    {v : V} {ttl : Int} (hre : Reachable s) (hstep : put s now k v ttl = .ok s') :
    s'.capacity = s.capacity := by
  obtain ⟨hcap, ids, l, hrepr, hlen⟩ := reachable_wf hre
  by_cases httl : ttl ≤ 0
  · rw [put_ttl_err s now k v httl] at hstep
    exact absurd hstep (by simp)
  · have httl' : 0 < ttl := lt_of_not_le httl
    rcases hdl : dictLookup s.cache k with _ | nid
    · by_cases hfull : s.cache.length < s.capacity
      · obtain ⟨sI, hrunI, hcapI, -, -, -⟩ := put_insert_sim hrepr hdl hfull httl'
        rw [hrunI] at hstep
        injection hstep with hstep
        rw [← hstep]
        exact hcapI
      · obtain ⟨sF, idsF, hrunF, hcapF, -, -⟩ :=
          put_full_sim hrepr hdl (le_of_not_lt hfull) hcap httl'
        rw [hrunF] at hstep
        injection hstep with hstep
        rw [← hstep]
        exact hcapF
    · obtain ⟨sU, idsU, hrunU, -, hcapU, -, -⟩ := put_update_sim hrepr hdl httl'
      rw [hrunU] at hstep
      injection hstep with hstep
      rw [← hstep]
      exact hcapU

/-- Removing one key's record leaves every other key's lookup unchanged. -/
theorem absLookup_absRemove_ne {l : List (K × V × Nat)} {k k' : K}
    (h : k' ≠ k) : absLookup k' (absRemove k l) = absLookup k' l := by
  induction l with
  | nil => rfl
  | cons e es ih =>
    by_cases he : e.1 = k
    · have he' : ¬ e.1 = k' := fun hh => h (hh.symm.trans he)
      rw [absRemove, if_pos he, absLookup_cons, if_neg he']
    · rw [absRemove, if_neg he, absLookup_cons, absLookup_cons, ih]

/-- A key present in the abstract ledger is present in the Index. -/
theorem dict_some_of_absLookup {s : LRUCacheWithTTL K V} {ids : List Nat}
    {l : List (K × V × Nat)} {k : K} {p : V × Nat}
    (h : ReprOK s ids l) (habs : absLookup k l = some p) :
    ∃ nid, dictLookup s.cache k = some nid := by
  have hmem : k ∈ l.map Prod.fst := by
    by_contra hn
    rw [absLookup_eq_none.2 hn] at habs
    exact Option.noConfusion habs
  have hne : lookupIdx ids l k ≠ none := fun hh =>
    ((lookupIdx_eq_none h.length_eq).1 hh) hmem
  rcases hli : lookupIdx ids l k with _ | nid
  · exact absurd hli hne
  · exact ⟨nid, (h.cache_lookup k).trans hli⟩

/-- CLAIM C1: for every reachable cache and every successful `put`, the
resulting `size()` (the count of Index entries) is at most the configured
capacity, and the capacity itself is unchanged by the call. -/
theorem spec_C1 {s s' : LRUCacheWithTTL K V} {now : Nat} {k : K} {v : V}
    {ttl : Int} (hre : Reachable s) (hstep : put s now k v ttl = .ok s') :
    size s' ≤ s'.capacity ∧ s'.capacity = s.capacity := by
  have hre' : Reachable s' := Reachable.put s now k v ttl s' hre hstep
  obtain ⟨-, ids, l, hrepr, hlen⟩ := reachable_wf hre'
  refine ⟨?_, put_capacity_preserved hre hstep⟩
  rw [size, hrepr.cache_len]
  exact hlen

theorem spec_C1_witness :
    Reachable winit1 ∧ winit1.put 0 0 7 5 = Except.ok wcap1 ∧
    size wcap1 ≤ wcap1.capacity ∧ wcap1.capacity = winit1.capacity :=
  ⟨Reachable.init 1 winit1 rfl, rfl,
   @spec_C1 Nat Nat _ winit1 wcap1 0 0 7 5 (Reachable.init 1 winit1 rfl) rfl⟩

/-- CLAIM C6: both error paths are side-effect free. A `put` whose TTL is
non-positive evaluates to the bare `ValueError` — it produces no successor
state at all, so the caller's state (Index, Ledger, `size()`) is exactly
the unchanged `s`; a construction with non-positive capacity likewise
evaluates to the bare `ValueError` and never yields a cache. -/
theorem spec_C6 (s : LRUCacheWithTTL K V) (now : Nat) (k : K) (v : V)
    {ttl cap : Int} (httl : ttl ≤ 0) (hcap : cap ≤ 0) :
    put s now k v ttl = .error (.valueError "TTL must be positive") ∧
    (∀ s', put s now k v ttl ≠ .ok s') ∧
    (init cap : Except PyError (LRUCacheWithTTL K V)) =
      .error (.valueError "Capacity must be positive") ∧
    (∀ s₀ : LRUCacheWithTTL K V, init cap ≠ .ok s₀) := by
  refine ⟨put_ttl_err s now k v httl, ?_, init_err hcap, ?_⟩
  · intro s' hh
    rw [put_ttl_err s now k v httl] at hh
    exact Except.noConfusion hh
  · intro s₀ hh
    rw [init_err hcap] at hh
    exact Except.noConfusion hh

theorem spec_C6_witness :
    (0 : Int) ≤ 0 ∧ (-3 : Int) ≤ 0 ∧
    (wcap1.put 0 1 2 0 = .error (.valueError "TTL must be positive") ∧
     (∀ s', wcap1.put 0 1 2 0 ≠ .ok s') ∧
     (init (-3) : Except PyError (LRUCacheWithTTL Nat Nat)) =
       .error (.valueError "Capacity must be positive") ∧
     (∀ s₀ : LRUCacheWithTTL Nat Nat, init (-3) ≠ .ok s₀)) :=
  ⟨by decide, by decide, spec_C6 wcap1 0 1 2 (by decide) (by decide)⟩

/-- CLAIM C8: `clear` empties the Index (`size() = 0` and every lookup —
in particular of any previously inserted key — returns `None` without
further mutation), relinks the two sentinels directly to each other, is
total (never fails), and is idempotent. -/
theorem spec_C8 {s : LRUCacheWithTTL K V} {ids : List Nat}
    {l : List (K × V × Nat)} (h : ReprOK s ids l) :
    size (clear s) = 0 ∧
    (∀ (now : Nat) (k : K), get (clear s) now k = .ok (none, clear s)) ∧
    nextOf (clear s) 0 = some 1 ∧ prevOf (clear s) 1 = some 0 ∧
    ReprOK (clear s) [] [] ∧
    clear (clear s) = clear s := by
  obtain ⟨hrepr, hcap, hcache, hlen, hnext, hprev, hidem⟩ := clear_sim h
  refine ⟨?_, ?_, hnext, hprev, hrepr, hidem⟩
  · rw [size, hcache]
    rfl
  · intro now k
    refine get_miss now ?_
    rw [hcache]
    rfl

theorem spec_C8_witness :
    size (clear wcap1) = 0 ∧
    (∀ (now : Nat) (k : Nat), get (clear wcap1) now k = .ok (none, clear wcap1)) ∧
    nextOf (clear wcap1) 0 = some 1 ∧ prevOf (clear wcap1) 1 = some 0 ∧
    ReprOK (clear wcap1) [] [] ∧
    clear (clear wcap1) = clear wcap1 :=
  spec_C8 wcap1_repr

/-- CLAIM C2: a `put` of a new key into a full cache first sweeps — the
surviving ledger is exactly the filter keeping records whose expiry is
still in the future — and evicts beyond that only when the sweep left the
cache still at capacity, in which case exactly the one LRU record (the
last in MRU→LRU order) is additionally dropped from both Index and Ledger. -/
theorem spec_C2 {s : LRUCacheWithTTL K V} {ids : List Nat}
    {l : List (K × V × Nat)} {k : K} {now : Nat} {v : V} {ttl : Int}
    (h : ReprOK s ids l) (hk : dictLookup s.cache k = none)
    (hfull : s.capacity ≤ size s) (hcappos : 1 ≤ s.capacity) (httl : 0 < ttl) :
    ∃ s' ids', put s now k v ttl = .ok s' ∧
      ReprOK s' ids' ((k, v, now + ttl.toNat) :: evictResult now s.capacity l) ∧
      sweepList now l = l.filter (fun e => decide (now < e.2.2)) ∧
      ((sweepList now l).length < s.capacity →
        evictResult now s.capacity l = sweepList now l) ∧
      (s.capacity ≤ (sweepList now l).length →
        evictResult now s.capacity l = (sweepList now l).dropLast ∧
        (evictResult now s.capacity l).length = (sweepList now l).length - 1) := by
  obtain ⟨s', ids', hrun, hcap', hlen', hrepr'⟩ := put_full_sim h hk hfull hcappos httl
  refine ⟨s', ids', hrun, hrepr', rfl, ?_, ?_⟩
  · intro hlt
    rw [evictResult, if_neg (not_le.2 hlt)]
  · intro hge
    rw [evictResult, if_pos hge]
    exact ⟨rfl, List.length_dropLast _⟩

theorem spec_C2_witness :
    dictLookup wcap1.cache 1 = none ∧ wcap1.capacity ≤ size wcap1 ∧
    1 ≤ wcap1.capacity ∧ (0 : Int) < 5 ∧
    (∃ s' ids', put wcap1 0 1 8 5 = .ok s' ∧
      ReprOK s' ids' ((1, 8, 0 + (5 : Int).toNat) ::
        evictResult 0 wcap1.capacity [(0, 7, 5)]) ∧
      sweepList 0 [(0, 7, 5)] =
        [(0, 7, 5)].filter (fun e => decide (0 < e.2.2)) ∧
      ((sweepList 0 [(0, 7, 5)]).length < wcap1.capacity →
        evictResult 0 wcap1.capacity [(0, 7, 5)] = sweepList 0 [(0, 7, 5)]) ∧
      (wcap1.capacity ≤ (sweepList 0 [(0, 7, 5)]).length →
        evictResult 0 wcap1.capacity [(0, 7, 5)] =
          (sweepList 0 [(0, 7, 5)]).dropLast ∧
        (evictResult 0 wcap1.capacity [(0, 7, 5)]).length =
          (sweepList 0 [(0, 7, 5)]).length - 1)) :=
  ⟨rfl, by decide, by decide, by decide,
   spec_C2 wcap1_repr rfl (by decide) (by decide) (by decide)⟩

/-- CLAIM C5: a `put` on a key already present in the Index — with no
assumption that its record is unexpired — overwrites the record's value
and expiry in place and moves it to MRU; the Index is untouched (so
`size()` is unchanged), the arena does not grow, no sweep or eviction
happens, and every other key's entry (value and expiry) is exactly as
before. -/
theorem spec_C5 {s : LRUCacheWithTTL K V} {ids : List Nat}
    {l : List (K × V × Nat)} {k : K} {nid : Nat} {now : Nat} {v : V} {ttl : Int}
    (h : ReprOK s ids l) (hk : dictLookup s.cache k = some nid)
    (httl : 0 < ttl) :
    ∃ s' ids', put s now k v ttl = .ok s' ∧
      s'.cache = s.cache ∧ size s' = size s ∧ s'.capacity = s.capacity ∧
      s'.nodes.length = s.nodes.length ∧
      ReprOK s' ids' ((k, v, now + ttl.toNat) :: absRemove k l) ∧
      absLookup k ((k, v, now + ttl.toNat) :: absRemove k l) =
        some (v, now + ttl.toNat) ∧
      (∀ k', k' ≠ k →
        absLookup k' ((k, v, now + ttl.toNat) :: absRemove k l) =
          absLookup k' l) := by
  obtain ⟨s', ids', hrun, hcache, hcap, hlen, hrepr'⟩ := put_update_sim h hk httl
  refine ⟨s', ids', hrun, hcache, ?_, hcap, hlen, hrepr', ?_, ?_⟩
  · rw [size, size, hcache]
  · rw [absLookup_cons, if_pos rfl]
  · intro k' hk'
    have hk'' : ¬ (k = k') := fun hh => hk' hh.symm
    rw [absLookup_cons, if_neg hk'', absLookup_absRemove_ne hk']

theorem spec_C5_witness :
    dictLookup wcap1.cache 0 = some 2 ∧ (0 : Int) < 7 ∧
    (∃ s' ids', put wcap1 3 0 9 7 = .ok s' ∧
      s'.cache = wcap1.cache ∧ size s' = size wcap1 ∧
      s'.capacity = wcap1.capacity ∧
      s'.nodes.length = wcap1.nodes.length ∧
      ReprOK s' ids' ((0, 9, 3 + (7 : Int).toNat) :: absRemove 0 [(0, 7, 5)]) ∧
      absLookup 0 ((0, 9, 3 + (7 : Int).toNat) :: absRemove 0 [(0, 7, 5)]) =
        some (9, 3 + (7 : Int).toNat) ∧
      (∀ k', k' ≠ 0 →
        absLookup k' ((0, 9, 3 + (7 : Int).toNat) :: absRemove 0 [(0, 7, 5)]) =
          absLookup k' [(0, 7, 5)])) :=
  ⟨rfl, by decide, spec_C5 wcap1_repr rfl (by decide)⟩

/-- CLAIM C9: in `put`'s eviction branch — entered only after the sweep
has run and the Index still holds at least `capacity ≥ 1` entries — the
cleanup succeeds, the post-sweep state still has `size() ≥ capacity`, and
`_remove_tail` detaches a genuine record node (never the head or tail
sentinel) whose key is stored on the node and is found in the Index,
mapped to exactly that node. -/
theorem spec_C9 {s : LRUCacheWithTTL K V} {ids : List Nat}
    {l : List (K × V × Nat)} (h : ReprOK s ids l) (hcap : 1 ≤ s.capacity)
    (now : Nat) (hfull : s.capacity ≤ (sweepList now l).length) :
    ∃ s' ids', _cleanup_expired s now = .ok s' ∧
      ReprOK s' ids' (sweepList now l) ∧ s.capacity ≤ size s' ∧
      ∃ lruId s₁ lk, _remove_tail s' = .ok (lruId, s₁) ∧
        lruId ≠ 0 ∧ lruId ≠ 1 ∧
        keyOf s₁ lruId = some lk ∧
        dictLookup s₁.cache lk = some lruId := by
  obtain ⟨s', ids', hrun, hcapEq, hlen, hkey, hval, hexp, hrepr'⟩ := cleanup_sim h now
  have hsize : s.capacity ≤ size s' := by
    rw [size, hrepr'.cache_len]
    exact hfull
  have hne : sweepList now l ≠ [] := by
    intro hh
    rw [hh] at hfull
    simp at hfull
    omega
  obtain ⟨lruId, s₁, lk, ids₁, hrunT, h0, h1, hkeyT, hdictT, -, -, -, -, -, -, -⟩ :=
    remove_tail_sim hrepr' hne
  exact ⟨s', ids', hrun, hrepr', hsize,
    lruId, s₁, lk, hrunT, h0, h1, hkeyT, hdictT⟩

theorem spec_C9_witness :
    1 ≤ wcap1.capacity ∧ wcap1.capacity ≤ (sweepList 0 [(0, 7, 5)]).length ∧
    (∃ s' ids', _cleanup_expired wcap1 0 = .ok s' ∧
      ReprOK s' ids' (sweepList 0 [(0, 7, 5)]) ∧
      wcap1.capacity ≤ size s' ∧
      ∃ lruId s₁ lk, _remove_tail s' = .ok (lruId, s₁) ∧
        lruId ≠ 0 ∧ lruId ≠ 1 ∧
        keyOf s₁ lruId = some lk ∧
        dictLookup s₁.cache lk = some lruId) :=
  ⟨by decide, by decide, spec_C9 wcap1_repr (by decide) 0 (by decide)⟩

/-- CLAIM C10: a `put` of a new key while strictly below capacity runs no
sweep and removes nothing: the Index grows by exactly the one new binding
(so `size()` increases by one), the ledger is the old ledger with the new
record prepended — every previously present key keeps its value and
expiry — and the new node sits at the MRU position (the head sentinel's
successor), carrying the new key and value. -/
theorem spec_C10 {s : LRUCacheWithTTL K V} {ids : List Nat}
    {l : List (K × V × Nat)} {k : K} {now : Nat} {v : V} {ttl : Int}
    (h : ReprOK s ids l) (hk : dictLookup s.cache k = none)
    (hroom : size s < s.capacity) (httl : 0 < ttl) :
    ∃ s', put s now k v ttl = .ok s' ∧
      size s' = size s + 1 ∧ s'.capacity = s.capacity ∧
      s'.cache = s.cache ++ [(k, s.nodes.length)] ∧
      ReprOK s' (s.nodes.length :: ids) ((k, v, now + ttl.toNat) :: l) ∧
      nextOf s' 0 = some s.nodes.length ∧
      keyOf s' s.nodes.length = some k ∧
      valOf s' s.nodes.length = some v ∧
      (∀ k', k' ≠ k →
        absLookup k' ((k, v, now + ttl.toNat) :: l) = absLookup k' l) := by
  obtain ⟨s', hrun, hcap, hcache, hlen, hrepr'⟩ := put_insert_sim h hk hroom httl
  have hsz : size s' = size s + 1 := by
    rw [size, size, hcache, List.length_append]
    rfl
  obtain ⟨hhead, -⟩ := List.forall₂_cons.1 hrepr'.entries
  refine ⟨s', hrun, hsz, hcap, hcache, hrepr', hrepr'.chain.1,
    hhead.1, hhead.2.1, ?_⟩
  intro k' hk'
  have hk'' : ¬ (k = k') := fun hh => hk' hh.symm
  rw [absLookup_cons, if_neg hk'']

theorem spec_C10_witness :
    dictLookup wcap2.cache 1 = none ∧ size wcap2 < wcap2.capacity ∧
    (0 : Int) < 5 ∧
    (∃ s', put wcap2 0 1 8 5 = .ok s' ∧
      size s' = size wcap2 + 1 ∧ s'.capacity = wcap2.capacity ∧
      s'.cache = wcap2.cache ++ [(1, wcap2.nodes.length)] ∧
      ReprOK s' (wcap2.nodes.length :: [2]) ((1, 8, 0 + (5 : Int).toNat) :: [(0, 7, 5)]) ∧
      nextOf s' 0 = some wcap2.nodes.length ∧
      keyOf s' wcap2.nodes.length = some 1 ∧
      valOf s' wcap2.nodes.length = some 8 ∧
      (∀ k', k' ≠ 1 →
        absLookup k' ((1, 8, 0 + (5 : Int).toNat) :: [(0, 7, 5)]) =
          absLookup k' [(0, 7, 5)])) :=
  ⟨rfl, by decide, by decide, spec_C10 wcap2_repr rfl (by decide) (by decide)⟩

/-- CLAIM C3: `get` never returns an expired value. On a key absent from
the Index it returns `None` with no mutation at all; on a present key
whose expiry has passed it removes that single record from Index and
Ledger — touching no other record and running no sweep — and returns
`None`; on a live key it returns the stored value and moves the record to
MRU. Conversely, any value `get` does return was stored under the key with
an expiry strictly in the future. -/
theorem spec_C3 (now : Nat) (k : K) {s : LRUCacheWithTTL K V}
    {ids : List Nat} {l : List (K × V × Nat)} (h : ReprOK s ids l) :
    (dictLookup s.cache k = none → get s now k = .ok (none, s)) ∧
    (∀ v e, absLookup k l = some (v, e) → e ≤ now →
      ∃ s' ids', get s now k = .ok (none, s') ∧
        s'.cache = dictDelete s.cache k ∧
        (∀ i, keyOf s' i = keyOf s i) ∧ (∀ i, valOf s' i = valOf s i) ∧
        (∀ i, expOf s' i = expOf s i) ∧
        ReprOK s' ids' (absRemove k l)) ∧
    (∀ v e, absLookup k l = some (v, e) → now < e →
      ∃ s' ids', get s now k = .ok (some v, s') ∧ s'.cache = s.cache ∧
        ReprOK s' ids' ((k, v, e) :: absRemove k l)) ∧
    (∀ r s', get s now k = .ok (some r, s') →
      ∃ e, absLookup k l = some (r, e) ∧ now < e) := by
  refine ⟨get_miss now, ?_, ?_, ?_⟩
  · intro v e habs he
    obtain ⟨nid, hdl⟩ := dict_some_of_absLookup h habs
    obtain ⟨s', ids', hrun, hcache, -, -, hkeys, hvals, hexps, hrepr'⟩ :=
      get_expired_sim h hdl habs he
    exact ⟨s', ids', hrun, hcache, hkeys, hvals, hexps, hrepr'⟩
  · intro v e habs he
    obtain ⟨nid, hdl⟩ := dict_some_of_absLookup h habs
    obtain ⟨s', ids', hrun, hcache, -, -, hrepr'⟩ := get_hit_sim h hdl habs he
    exact ⟨s', ids', hrun, hcache, hrepr'⟩
  · intro r s' hget
    rcases hdl : dictLookup s.cache k with _ | nid
    · rw [get_miss now hdl] at hget
      injection hget with hh
      exact absurd (congrArg Prod.fst hh) (by simp)
    · obtain ⟨v', e', habs', -, -, -⟩ := lookup_entry h hdl
      by_cases hle : e' ≤ now
      · obtain ⟨s₂, ids₂, hrun, -, -, -, -, -, -, -⟩ :=
          get_expired_sim h hdl habs' hle
        rw [hrun] at hget
        injection hget with hh
        exact absurd (congrArg Prod.fst hh) (by simp)
      · have hlt : now < e' := lt_of_not_le hle
        obtain ⟨s₂, ids₂, hrun, -, -, -, -⟩ := get_hit_sim h hdl habs' hlt
        rw [hrun] at hget
        injection hget with hh
        have hv : some v' = some r := congrArg Prod.fst hh
        injection hv with hv
        exact ⟨e', by rw [← hv]; exact habs', hlt⟩

theorem spec_C3_witness :
    (dictLookup wcap1.cache 3 = none → get wcap1 9 3 = .ok (none, wcap1)) ∧
    (∀ v e, absLookup 3 [(0, 7, 5)] = some (v, e) → e ≤ 9 →
      ∃ s' ids', get wcap1 9 3 = .ok (none, s') ∧
        s'.cache = dictDelete wcap1.cache 3 ∧
        (∀ i, keyOf s' i = keyOf wcap1 i) ∧
        (∀ i, valOf s' i = valOf wcap1 i) ∧
        (∀ i, expOf s' i = expOf wcap1 i) ∧
        ReprOK s' ids' (absRemove 3 [(0, 7, 5)])) ∧
    (∀ v e, absLookup 3 [(0, 7, 5)] = some (v, e) → 9 < e →
      ∃ s' ids', get wcap1 9 3 = .ok (some v, s') ∧ s'.cache = wcap1.cache ∧
        ReprOK s' ids' ((3, v, e) :: absRemove 3 [(0, 7, 5)])) ∧
    (∀ r s', get wcap1 9 3 = .ok (some r, s') →
      ∃ e, absLookup 3 [(0, 7, 5)] = some (r, e) ∧ 9 < e) :=
  spec_C3 9 3 wcap1_repr

/-- CLAIM C7: every reachable state satisfies the structural invariant
(preserved, by the induction over `Reachable`, across every `get`, `put`
and `clear`): the non-sentinel nodes `ids` form one valid doubly-linked
chain from head sentinel to tail sentinel — consecutive nodes linked by
`next` forward and `prev` backward — with no node appearing twice, each
live node carries exactly one ledger key, and the multisets of Index keys
and Ledger keys coincide (a bijection between Index entries and the
non-sentinel Ledger nodes). -/
theorem spec_C7 {s : LRUCacheWithTTL K V} (h : Reachable s) :
    ∃ ids l, ReprOK s ids l ∧
      chainOk s 0 ids 1 ∧ ids.Nodup ∧
      List.Forall₂ (fun i e => keyOf s i = some e.1) ids l ∧
      (s.cache.map Prod.fst).Perm (l.map Prod.fst) := by
  obtain ⟨-, ids, l, hrepr, -⟩ := reachable_wf h
  refine ⟨ids, l, hrepr, hrepr.chain, hrepr.ids_nodup,
    hrepr.entries.imp (fun _ _ hm => hm.1), ?_⟩
  rw [List.perm_ext_iff_of_nodup hrepr.cache_keys_nodup hrepr.lkeys_nodup]
  intro a
  have hnone : dictLookup s.cache a = none ↔ a ∉ l.map Prod.fst := by
    rw [hrepr.cache_lookup]
    exact lookupIdx_eq_none hrepr.length_eq
  exact not_iff_not.1 (dictLookup_eq_none.symm.trans hnone)

theorem spec_C7_witness :
    Reachable wcap1 ∧
    (∃ ids l, ReprOK wcap1 ids l ∧
      chainOk wcap1 0 ids 1 ∧ ids.Nodup ∧
      List.Forall₂ (fun i e => keyOf wcap1 i = some e.1) ids l ∧
      (wcap1.cache.map Prod.fst).Perm (l.map Prod.fst)) :=
  ⟨wcap1_reachable, spec_C7 wcap1_reachable⟩

/-- A run of `put`s of pairwise-distinct fresh keys that stays within
capacity succeeds and prepends the new records (most recent first) to the
ledger. -/
theorem putSeq_fresh {now : Nat} {ttl : Int} (httl : 0 < ttl)
    {kvs : List (K × V)} :
    ∀ {s : LRUCacheWithTTL K V} {ids : List Nat} {l : List (K × V × Nat)},
    ReprOK s ids l → (kvs.map Prod.fst).Nodup →
    (∀ k' ∈ kvs.map Prod.fst, k' ∉ l.map Prod.fst) →
    l.length + kvs.length ≤ s.capacity →
    ∃ s' ids', putSeq s now kvs ttl = .ok s' ∧ s'.capacity = s.capacity ∧
      ReprOK s' ids'
        ((kvs.map fun kv => (kv.1, kv.2, now + ttl.toNat)).reverse ++ l) := by
  induction kvs with
  | nil =>
    intro s ids l h _ _ _
    exact ⟨s, ids, rfl, rfl, by simpa using h⟩
  | cons kv kvs ih =>
    obtain ⟨k, v⟩ := kv
    intro s ids l h hnd hfresh hlen
    have hkfresh : k ∉ l.map Prod.fst := hfresh k (by simp)
    have hk : dictLookup s.cache k = none := by
      rw [h.cache_lookup, lookupIdx_eq_none h.length_eq]
      exact hkfresh
    have hroom : s.cache.length < s.capacity := by
      rw [h.cache_len]
      simp only [List.length_cons] at hlen
      omega
    obtain ⟨s₁, hrun₁, hcap₁, hcache₁, hlen₁, hrepr₁⟩ :=
      put_insert_sim h hk hroom httl
    have hndparts := List.nodup_cons.1 (by simpa using hnd :
      (k :: kvs.map Prod.fst).Nodup)
    have hknotin : k ∉ kvs.map Prod.fst := hndparts.1
    have hfresh' : ∀ k' ∈ kvs.map Prod.fst,
        k' ∉ ((k, v, now + ttl.toNat) :: l).map Prod.fst := by
      intro k' hk' hmem
      simp only [List.map_cons, List.mem_cons] at hmem
      rcases hmem with hm | hm
      · rw [hm] at hk'
        exact hknotin hk'
      · exact hfresh k' (List.mem_cons_of_mem _ hk') hm
    have hlen' : ((k, v, now + ttl.toNat) :: l).length + kvs.length ≤
        s₁.capacity := by
      rw [hcap₁]
      simp only [List.length_cons] at hlen ⊢
      omega
    obtain ⟨s₂, ids₂, hrun₂, hcap₂, hrepr₂⟩ := ih hrepr₁ hndparts.2 hfresh' hlen'
    refine ⟨s₂, ids₂, ?_, hcap₂.trans hcap₁, ?_⟩
    · show ((k, v) :: kvs).foldlM (fun st kv => put st now kv.1 kv.2 ttl) s =
        Except.ok s₂
      rw [List.foldlM_cons]
      show (put s now k v ttl >>= fun st =>
        kvs.foldlM (fun st kv => put st now kv.1 kv.2 ttl) st) = Except.ok s₂
      rw [hrun₁]
      exact hrun₂
    · have heq : ((((k, v) :: kvs).map
            fun kv => (kv.1, kv.2, now + ttl.toNat)).reverse ++ l)
          = ((kvs.map fun kv => (kv.1, kv.2, now + ttl.toNat)).reverse ++
              ((k, v, now + ttl.toNat) :: l)) := by
        simp [List.reverse_cons, List.append_assoc]
      rw [heq]
      exact hrepr₂

/-- CLAIM C4: recency correctness. With capacity `N = 2 + rest.length ≥ 2`,
after `N` `put`s of distinct keys (`k1`, `k2`, then `rest`) whose TTLs have
not elapsed, a `get` on the first-inserted key `k1`, and a `put` of a fresh
`(N+1)`-th key `kN`, the cache is still full at `N` entries, `k1` is still
retrievable with its original value, and it is exactly `k2` — the LRU after
the `get` refreshed `k1` — that was evicted from the Index. -/
theorem spec_C4 (k1 k2 kN : K) (v1 v2 vN : V) (rest : List (K × V))
    (now : Nat) (ttl : Int)
    (hnd : (kN :: k1 :: k2 :: rest.map Prod.fst).Nodup) (httl : 0 < ttl) :
    ∃ s0 s1 s2 s3 s4 : LRUCacheWithTTL K V,
      init ((2 + rest.length : Nat) : Int) = .ok s0 ∧
      putSeq s0 now ((k1, v1) :: (k2, v2) :: rest) ttl = .ok s1 ∧
      size s1 = 2 + rest.length ∧
      get s1 now k1 = .ok (some v1, s2) ∧
      put s2 now kN vN ttl = .ok s3 ∧
      size s3 = 2 + rest.length ∧
      dictLookup s3.cache k2 = none ∧
      get s3 now k1 = .ok (some v1, s4) := by
  have hEpos : now < now + ttl.toNat := by omega
  -- distinctness facts
  have hx := List.nodup_cons.1 hnd
  have hkN1 : ¬ (kN = k1) := fun hh => hx.1 (List.mem_cons.2 (Or.inl hh))
  have hkN2 : ¬ (kN = k2) := fun hh =>
    hx.1 (List.mem_cons.2 (Or.inr (List.mem_cons.2 (Or.inl hh))))
  have hkNr : kN ∉ rest.map Prod.fst := fun hh =>
    hx.1 (List.mem_cons.2 (Or.inr (List.mem_cons.2 (Or.inr hh))))
  have hy := List.nodup_cons.1 hx.2
  have hk12 : ¬ (k1 = k2) := fun hh => hy.1 (List.mem_cons.2 (Or.inl hh))
  have hk1r : k1 ∉ rest.map Prod.fst := fun hh => hy.1 (List.mem_cons.2 (Or.inr hh))
  have hz := List.nodup_cons.1 hy.2
  have hk2r : k2 ∉ rest.map Prod.fst := hz.1
  -- construction
  have hcap0 : (0 : Int) < ((2 + rest.length : Nat) : Int) := by
    exact_mod_cast (by omega : 0 < 2 + rest.length)
  obtain ⟨s0, hs0, hcap0', hrepr0⟩ := init_ok (K := K) (V := V) hcap0
  have hcapN : s0.capacity = 2 + rest.length := by
    rw [hcap0']
    omega
  -- the N initial puts
  obtain ⟨s1, ids1, hrun1, hcap1, hrepr1⟩ :=
    @putSeq_fresh K V _ now ttl httl ((k1, v1) :: (k2, v2) :: rest) s0 [] []
      hrepr0 hx.2 (fun k' _ hmem => by simp at hmem)
      (by simp only [List.length_nil, List.length_cons, hcapN]; omega)
  have hl1 : ((((k1, v1) :: (k2, v2) :: rest).map
        fun kv => (kv.1, kv.2, now + ttl.toNat)).reverse ++
        ([] : List (K × V × Nat)))
      = ((rest.map fun kv => (kv.1, kv.2, now + ttl.toNat)).reverse ++
          [(k2, v2, now + ttl.toNat)]) ++ (k1, v1, now + ttl.toNat) :: [] := by
    simp [List.reverse_cons, List.append_assoc]
  rw [hl1] at hrepr1
  have hsize1 : size s1 = 2 + rest.length := by
    rw [size, hrepr1.cache_len]
    simp only [List.length_append, List.length_reverse, List.length_map,
      List.length_cons, List.length_nil]
    omega
  -- get on k1: a live hit
  have hk1notin : k1 ∉ ((rest.map fun kv => (kv.1, kv.2, now + ttl.toNat)).reverse
      ++ [(k2, v2, now + ttl.toNat)]).map Prod.fst := by
    intro hmem
    rw [List.map_append] at hmem
    rcases List.mem_append.1 hmem with hm | hm
    · rw [List.map_reverse, List.mem_reverse] at hm
      have : k1 ∈ rest.map Prod.fst := by
        simpa [List.map_map, Function.comp] using hm
      exact hk1r this
    · have : k1 = k2 := by simpa using hm
      exact hk12 this
  have habs1 : absLookup k1
      (((rest.map fun kv => (kv.1, kv.2, now + ttl.toNat)).reverse ++
          [(k2, v2, now + ttl.toNat)]) ++ (k1, v1, now + ttl.toNat) :: []) =
      some (v1, now + ttl.toNat) := absLookup_split hk1notin
  obtain ⟨nid1, hdl1⟩ := dict_some_of_absLookup hrepr1 habs1
  obtain ⟨s2, ids2, hget1, hcache2, hcap2, -, hrepr2⟩ :=
    get_hit_sim hrepr1 hdl1 habs1 hEpos
  have habsrem : absRemove k1
      (((rest.map fun kv => (kv.1, kv.2, now + ttl.toNat)).reverse ++
          [(k2, v2, now + ttl.toNat)]) ++ (k1, v1, now + ttl.toNat) :: []) =
      ((rest.map fun kv => (kv.1, kv.2, now + ttl.toNat)).reverse ++
          [(k2, v2, now + ttl.toNat)]) := by
    rw [absRemove_append_of_not_mem hk1notin,
      absRemove_cons_self (e := (k1, v1, now + ttl.toNat)), List.append_nil]
  rw [habsrem] at hrepr2
  -- put of the (N+1)-th key: full cache, sweep keeps everything, LRU = k2
  have hkNnotin : kN ∉ ((k1, v1, now + ttl.toNat) ::
      ((rest.map fun kv => (kv.1, kv.2, now + ttl.toNat)).reverse ++
        [(k2, v2, now + ttl.toNat)])).map Prod.fst := by
    intro hmem
    simp only [List.map_cons, List.mem_cons] at hmem
    rcases hmem with hm | hm
    · exact hkN1 hm
    · rw [List.map_append] at hm
      rcases List.mem_append.1 hm with hm' | hm'
      · rw [List.map_reverse, List.mem_reverse] at hm'
        have : kN ∈ rest.map Prod.fst := by
          simpa [List.map_map, Function.comp] using hm'
        exact hkNr this
      · have : kN = k2 := by simpa using hm'
        exact hkN2 this
  have hdlN : dictLookup s2.cache kN = none := by
    rw [hrepr2.cache_lookup, lookupIdx_eq_none hrepr2.length_eq]
    exact hkNnotin
  have hcapchain : s2.capacity = 2 + rest.length := by
    rw [hcap2, hcap1, hcapN]
  have hfull : s2.capacity ≤ s2.cache.length := by
    rw [hrepr2.cache_len, hcapchain]
    simp only [List.length_cons, List.length_append, List.length_reverse,
      List.length_map]
    omega
  have hcappos : 1 ≤ s2.capacity := by
    rw [hcapchain]
    omega
  obtain ⟨s3, ids3, hput3, hcap3, hlen3, hrepr3⟩ :=
    @put_full_sim K V _ s2 ids2 _ kN now vN ttl hrepr2 hdlN hfull hcappos httl
  -- evaluate the eviction step
  have hsweep : sweepList now ((k1, v1, now + ttl.toNat) ::
      ((rest.map fun kv => (kv.1, kv.2, now + ttl.toNat)).reverse ++
        [(k2, v2, now + ttl.toNat)])) =
      ((k1, v1, now + ttl.toNat) ::
      ((rest.map fun kv => (kv.1, kv.2, now + ttl.toNat)).reverse ++
        [(k2, v2, now + ttl.toNat)])) := by
    refine List.filter_eq_self.2 ?_
    intro a ha
    simp only [List.mem_cons, List.mem_append, List.mem_reverse,
      List.mem_map, List.mem_singleton] at ha
    rcases ha with rfl | ⟨kv, -, rfl⟩ | rfl | hnil
    · exact decide_eq_true hEpos
    · exact decide_eq_true hEpos
    · exact decide_eq_true hEpos
    · cases hnil
  have hevict : evictResult now s2.capacity ((k1, v1, now + ttl.toNat) ::
      ((rest.map fun kv => (kv.1, kv.2, now + ttl.toNat)).reverse ++
        [(k2, v2, now + ttl.toNat)])) =
      (k1, v1, now + ttl.toNat) ::
        (rest.map fun kv => (kv.1, kv.2, now + ttl.toNat)).reverse := by
    simp only [evictResult]
    rw [hsweep, if_pos (by
      rw [hcapchain]
      simp only [List.length_cons, List.length_append, List.length_reverse,
        List.length_map]
      omega)]
    rw [← List.cons_append, List.dropLast_concat]
  rw [hevict] at hrepr3
  have hsize3 : size s3 = 2 + rest.length := by
    rw [size, hrepr3.cache_len]
    simp only [List.length_cons, List.length_reverse, List.length_map]
    omega
  -- k2 was evicted
  have hk2notin3 : k2 ∉ ((kN, vN, now + ttl.toNat) ::
      (k1, v1, now + ttl.toNat) ::
        (rest.map fun kv => (kv.1, kv.2, now + ttl.toNat)).reverse).map
        Prod.fst := by
    intro hmem
    simp only [List.map_cons, List.mem_cons] at hmem
    rcases hmem with hm | hm | hm
    · exact hkN2 hm.symm
    · exact hk12 hm.symm
    · rw [List.map_reverse, List.mem_reverse] at hm
      have : k2 ∈ rest.map Prod.fst := by
        simpa [List.map_map, Function.comp] using hm
      exact hk2r this
  have hdlk2 : dictLookup s3.cache k2 = none := by
    rw [hrepr3.cache_lookup, lookupIdx_eq_none hrepr3.length_eq]
    exact hk2notin3
  -- k1 still retrievable
  have habs3 : absLookup k1 ((kN, vN, now + ttl.toNat) ::
      (k1, v1, now + ttl.toNat) ::
        (rest.map fun kv => (kv.1, kv.2, now + ttl.toNat)).reverse) =
      some (v1, now + ttl.toNat) := by
    rw [absLookup_cons, if_neg hkN1, absLookup_cons, if_pos rfl]
  obtain ⟨nid3, hdl3⟩ := dict_some_of_absLookup hrepr3 habs3
  obtain ⟨s4, ids4, hget4, -, -, -, -⟩ := get_hit_sim hrepr3 hdl3 habs3 hEpos
  exact ⟨s0, s1, s2, s3, s4, hs0, hrun1, hsize1, hget1, hput3, hsize3,
    hdlk2, hget4⟩

theorem spec_C4_witness :
    ((2 : Nat) :: (0 : Nat) :: 1 ::
      List.map Prod.fst ([] : List (Nat × Nat))).Nodup ∧ (0 : Int) < 5 ∧
    (∃ s0 s1 s2 s3 s4 : LRUCacheWithTTL Nat Nat,
      init ((2 + List.length ([] : List (Nat × Nat)) : Nat) : Int) = .ok s0 ∧
      putSeq s0 0 ((0, 7) :: (1, 8) :: []) 5 = .ok s1 ∧
      size s1 = 2 + List.length ([] : List (Nat × Nat)) ∧
      get s1 0 0 = .ok (some 7, s2) ∧
      put s2 0 2 9 5 = .ok s3 ∧
      size s3 = 2 + List.length ([] : List (Nat × Nat)) ∧
      dictLookup s3.cache 1 = none ∧
      get s3 0 0 = .ok (some 7, s4)) :=
  ⟨by decide, by decide, spec_C4 0 1 2 7 8 9 [] 0 5 (by decide) (by decide)⟩

end LRUCacheWithTTL

end LRUTTL
